import Mathlib

/-!
Verification development for dropbox_upload.py.

Shallow embedding of the program's data model and operations:
* the chunked upload session engine (`upload`),
* the URL post-processing helper (`convert_dropbox_url_into_download_only`)
  together with the parts of Python's urllib.parse that it calls,
* the credential store logic (`get_refresh_token`) over an INI-file model,
* the transfer orchestrator (`big_file_upload`) and the `__main__` block,
* the folder download loop (`download_folder`),
* the password generator (`generate_password`).

Remote calls, user interaction and the filesystem are modelled as explicit
environments or traces; machine behaviour that the program observes (sizes,
offsets, strings) is modelled with Nat and Char lists.
-/

namespace DropboxUpload

/-! Definitions: the shallow embedding of the program. -/

/-- CHUNK_SIZE = 4 * 1024 * 1024 from the source. -/
def CHUNK_SIZE : Nat := 4 * 1024 * 1024

/-- One remote write call issued by `upload`.  `payloadStart` is the file
position at which the payload bytes begin (the position of the file handle
before the `f.read` for this call), `payloadLen` the number of bytes read and
sent.  Append and finish calls also carry the cursor offset passed to the
remote API. -/
inductive ApiCall where
  | files_upload (payloadStart payloadLen : Nat)
  | session_start (payloadStart payloadLen : Nat)
  | session_append (offset payloadStart payloadLen : Nat)
  | session_finish (offset payloadStart payloadLen : Nat)
deriving DecidableEq, Repr

/-- The while-loop of `upload` for the chunked path.  `pos` models `f.tell()`
and `offset` models `cursor.offset`.  Each `f.read(CHUNK_SIZE)` reads
`min CHUNK_SIZE (fileSize - pos)` bytes, which the branch condition resolves
to `fileSize - pos` in the finish branch and to `CHUNK_SIZE` in the append
branch.  After the finish call the loop condition `f.tell() < file_size` is
false, so the loop ends.  The loop advances `pos` by CHUNK_SIZE ≥ 1 every
iteration, so it runs fewer than `fileSize` iterations; `fuel` makes the
recursion structural and any value with `fileSize - pos ≤ fuel` computes the
loop exactly. -/
def uploadLoop : Nat → Nat → Nat → Nat → List ApiCall
  | 0, _, _, _ => []
  | fuel + 1, fileSize, pos, offset =>
    if pos < fileSize then
      if fileSize - pos ≤ CHUNK_SIZE then
        [ApiCall.session_finish offset pos (fileSize - pos)]
      else
        ApiCall.session_append offset pos CHUNK_SIZE ::
          uploadLoop fuel fileSize (pos + CHUNK_SIZE) (pos + CHUNK_SIZE)
    else []

/-- The chunked-path loop entered with `f.tell() = cursor.offset = CHUNK_SIZE`
after the session-start call. -/
def uploadChunked (fileSize pos offset : Nat) : List ApiCall :=
  uploadLoop fileSize fileSize pos offset

/-- The sequence of remote write calls issued by `upload` for a file of
`fileSize` bytes: a single `files_upload` when the size is at most
CHUNK_SIZE, otherwise a session start with the first chunk (the first
`f.read(CHUNK_SIZE)` returns CHUNK_SIZE bytes since `fileSize > CHUNK_SIZE`)
followed by the loop.  The initial cursor offset is `f.tell()` after the
first read. -/
def upload (fileSize : Nat) : List ApiCall :=
  if fileSize ≤ CHUNK_SIZE then
    [ApiCall.files_upload 0 fileSize]
  else
    ApiCall.session_start 0 CHUNK_SIZE ::
      uploadChunked fileSize CHUNK_SIZE CHUNK_SIZE

/-- Checks the sequencing discipline of a chunked-call trace: payloads are
contiguous ranges of the file in order starting at `sent`, every append and
finish call carries a cursor offset equal to the bytes already sent, no
`files_upload` appears, and the payload lengths sum to exactly `total`. -/
def sequencingOk (total : Nat) : Nat → List ApiCall → Bool
  | sent, [] => sent == total
  | _, ApiCall.files_upload _ _ :: _ => false
  | sent, ApiCall.session_start ps len :: rest =>
      (ps == sent) && sequencingOk total (sent + len) rest
  | sent, ApiCall.session_append off ps len :: rest =>
      (off == sent) && (ps == sent) && sequencingOk total (sent + len) rest
  | sent, ApiCall.session_finish off ps len :: rest =>
      (off == sent) && (ps == sent) && sequencingOk total (sent + len) rest

/-- The list of cursor offsets carried by append/finish calls of a trace. -/
def cursorOffsets : List ApiCall → List Nat
  | [] => []
  | ApiCall.session_append off _ _ :: rest => off :: cursorOffsets rest
  | ApiCall.session_finish off _ _ :: rest => off :: cursorOffsets rest
  | _ :: rest => cursorOffsets rest

/-- Whitespace as stripped by the str.strip method. -/
def pySpace (c : Char) : Bool :=
  c = ' ' || c = '\t' || c = '\n' || c = '\r' || c = '\x0b' || c = '\x0c'

/-- str.strip: remove leading and trailing whitespace. -/
def pyStrip (l : List Char) : List Char :=
  ((l.dropWhile pySpace).reverse.dropWhile pySpace).reverse

/-- Split a character list at the first character satisfying `p`: returns the
prefix before it and, when found, the remainder after it. -/
def breakAtFirst (p : Char → Bool) : List Char → List Char × Option (List Char)
  | [] => ([], none)
  | c :: t =>
    if p c then ([], some t)
    else
      let r := breakAtFirst p t
      (c :: r.1, r.2)

/-- string.hexdigits from the Python standard library. -/
def hexdigits : List Char := "0123456789abcdefABCDEF".data

/-- generate_password: twelve characters drawn from string.hexdigits by
secrets.choice and lowercased.  The random draws are modelled by the
function `pick`; properties are quantified over all draw sequences whose
values lie in the alphabet. -/
def generate_password (pick : Nat → Char) : String :=
  String.mk ((List.range 12).map fun i => (pick i).toLower)

/-- The oauth result fields that get_refresh_token persists
(scope and expiration through str()). -/
structure TokenRecord where
  access_token : String
  refresh_token : String
  account_id : String
  scope : String
  expiration : String
deriving DecidableEq, Repr

/-- The lines configparser.write produces for the single section that
get_refresh_token fills in: the section header, one key = value line per
field in assignment order, and a closing blank line. -/
def iniWriteSection (appKey : String) (r : TokenRecord) : List String :=
  ["[" ++ appKey ++ "]",
   "access_token = " ++ r.access_token,
   "refresh_token = " ++ r.refresh_token,
   "account_id = " ++ r.account_id,
   "scope = " ++ r.scope,
   "expiration = " ++ r.expiration,
   ""]

inductive IniLine where
  | header (name : List Char)
  | entry (key value : List Char)
  | blank
  | malformed
deriving DecidableEq, Repr

def isIniDelim (c : Char) : Bool := c = '=' || c = ':'

/-- Classification of one line of an INI file, covering the grammar that
configparser.write emits: section headers, key = value options (key and
value stripped, key lowercased by optionxform, the value split off at the
first delimiter), and blank lines.  Continuation and comment lines of the
full configparser grammar are classified as malformed; the writer never
emits them. -/
def classifyIniLine (l : List Char) : IniLine :=
  if (pyStrip l).isEmpty then .blank
  else if (pyStrip l).head? = some '[' then
    if (pyStrip l).getLast? = some ']' then
      if ((pyStrip l).drop 1).dropLast ≠ [] then
        .header (((pyStrip l).drop 1).dropLast)
      else .malformed
    else .malformed
  else if pySpace (l.headD ' ') then .malformed
  else
    match (breakAtFirst isIniDelim l).2 with
    | none => .malformed
    | some rest =>
      if (pyStrip (breakAtFirst isIniDelim l).1).isEmpty then .malformed
      else .entry ((pyStrip (breakAtFirst isIniDelim l).1).map Char.toLower)
        (pyStrip rest)

/-- Folds classified lines into an association list of sections.  Returns
none on any malformed line or on an option appearing before the first
section header, where configparser.read raises. -/
def iniParseGo : List (List Char × List (List Char × List Char)) →
    Option (List Char × List (List Char × List Char)) →
    List (List Char) → Option (List (List Char × List (List Char × List Char)))
  | acc, none, [] => some acc
  | acc, some cur, [] => some (acc ++ [cur])
  | acc, cur, line :: rest =>
    match classifyIniLine line with
    | .blank => iniParseGo acc cur rest
    | .header name =>
        match cur with
        | none => iniParseGo acc (some (name, [])) rest
        | some c => iniParseGo (acc ++ [c]) (some (name, [])) rest
    | .entry k v =>
        match cur with
        | none => none
        | some (n, es) => iniParseGo acc (some (n, es ++ [(k, v)])) rest
    | .malformed => none

def iniParseLines (lines : List String) :
    Option (List (List Char × List (List Char × List Char))) :=
  iniParseGo [] none (lines.map String.data)

/-- Access-time BasicInterpolation of configparser, modelled exactly for
values without a percent character (returned unchanged).  A value holding a
percent character triggers interpolation, which this model conservatively
reports as a failure (Python resolves a doubled percent or a named
reference and raises on anything else); the claims only use percent-free
values, where this model agrees with configparser. -/
def interpolate (v : List Char) : Option (List Char) :=
  if v.contains '%' then none else some v

/-- Reading config[sect][key]: section lookup, option lookup, then
interpolation. -/
def iniGetValue (sections : List (List Char × List (List Char × List Char)))
    (sect key : List Char) : Option (List Char) :=
  match sections.lookup sect with
  | none => none
  | some entries =>
    match entries.lookup key with
    | none => none
    | some v => interpolate v

/-- Outcome of the token exchange auth_flow.finish: either the oauth result,
or the RuntimeError that make_user_login_to_get_tokens catches before
calling sys.exit(42). -/
inductive AuthFinish where
  | ok (tokens : TokenRecord)
  | runtime_error
deriving DecidableEq, Repr

/-- The credential file on disk. -/
inductive ConfigFile where
  | absent
  | present (lines : List String)
deriving DecidableEq, Repr

/-- Result of get_refresh_token: the returned refresh token together with
the resulting on-disk file, the process exit with code 42 performed inside
make_user_login_to_get_tokens, or a raised exception. -/
inductive TokenOutcome where
  | ok (refresh : String) (file : ConfigFile)
  | exit42
  | error
deriving DecidableEq, Repr

/-- get_refresh_token over the file/login environment.  When the config
file is absent it raises unless interactive, otherwise runs the interactive
login, fills config[APP_KEY] from the tokens, writes the file and returns
config[APP_KEY]['refresh_token'] (an interpolating access of the value just
assigned).  When the file exists it is read and
config[APP_KEY]['refresh_token'] is returned; configparser raises on
malformed content and a missing section or option raises KeyError, both
modelled as error. -/
def get_refresh_token (appKey : String) (interactive : Bool) (file : ConfigFile)
    (login : AuthFinish) : TokenOutcome :=
  match file with
  | .absent =>
    if !interactive then .error
    else
      match login with
      | .runtime_error => .exit42
      | .ok tokens =>
        match interpolate tokens.refresh_token.data with
        | some v => .ok (String.mk v) (.present (iniWriteSection appKey tokens))
        | none => .error
  | .present lines =>
    match iniParseLines lines with
    | none => .error
    | some sections =>
      match iniGetValue sections appKey.data "refresh_token".data with
      | some v => .ok (String.mk v) (.present lines)
      | none => .error

/-- A credential value is INI-safe when it carries no surrounding
whitespace, no line break the file format would cut at, and no percent
character that interpolation would transform. -/
def iniSafeValue (v : String) : Prop :=
  pyStrip v.data = v.data ∧ v.data.contains '\n' = false ∧
    v.data.contains '\r' = false ∧ v.data.contains '%' = false

instance (v : String) : Decidable (iniSafeValue v) := by
  unfold iniSafeValue; infer_instance

/-- Observable events of a big_file_upload run, in program order. -/
inductive Event where
  | get_token
  | resolve_namespace
  | upload_call
  | sleep
  | create_link
deriving DecidableEq, Repr

/-- Environment of one run: the credential file and login outcome consumed
by get_refresh_token, and the outcomes of the remote calls. -/
structure RunEnv where
  appKey : String
  configFile : ConfigFile
  login : AuthFinish
  nsOk : Bool
  uploadOk : Bool
  uploadedPath : String
  linkOk : Bool
  linkUrl : String
deriving DecidableEq, Repr

/-- Result of big_file_upload: the return_struct fields on success, the
process exit performed inside the login helper, or a re-raised exception. -/
inductive BigUploadResult where
  | ok (url : Option String) (dropbox_path : String)
  | exit42
  | error
deriving DecidableEq, Repr

/-- The body of big_file_upload inside the with-block: optionally resolve
the team namespace root, upload, and if a password was requested (argparse
gives None and the empty string is falsy) sleep ten seconds and create the
shared link.  Exceptions are logged at critical severity and re-raised. -/
def bigUploadBody (env : RunEnv) (use_team_root : Bool)
    (password : Option String) : List Event × BigUploadResult :=
  let nsEvents := if use_team_root then [Event.resolve_namespace] else []
  if use_team_root && !env.nsOk then (nsEvents, .error)
  else
    let ev1 := nsEvents ++ [Event.upload_call]
    if !env.uploadOk then (ev1, .error)
    else
      match password with
      | none => (ev1, .ok none env.uploadedPath)
      | some p =>
        if p = "" then (ev1, .ok none env.uploadedPath)
        else
          let ev2 := ev1 ++ [Event.sleep, Event.create_link]
          if !env.linkOk then (ev2, .error)
          else (ev2, .ok (some env.linkUrl) env.uploadedPath)

/-- big_file_upload: obtain a refresh token when none is cached (the module
global), then run the body.  A sys.exit(42) raised inside the login helper
is a SystemExit and passes through the except-Exception handler; other
exceptions from get_refresh_token are raised before the try block and
propagate. -/
def big_file_upload (env : RunEnv) (cachedToken : Option String)
    (interactive use_team_root : Bool) (password : Option String) :
    List Event × BigUploadResult :=
  match cachedToken with
  | some _ => bigUploadBody env use_team_root password
  | none =>
    match get_refresh_token env.appKey interactive env.configFile env.login with
    | .exit42 => ([Event.get_token], .exit42)
    | .error => ([Event.get_token], .error)
    | .ok _ _ =>
      let r := bigUploadBody env use_team_root password
      (Event.get_token :: r.1, r.2)

/-- The command line arguments that the exit-code model consumes. -/
structure CliArgs where
  authenticate : Bool
  source : String
  source_exists : Bool
  destination : String
  zip : Bool
  zip_output_exists : Bool
  password : Option String
  root_team : Bool
deriving DecidableEq, Repr

/-- The __main__ block: returns the process exit status and, for a zip run
that succeeds, the password that goes into the JSON report.  Python exits 0
at normal end of the script and on sys.exit(0), 42 on sys.exit(42), and 1
on an uncaught exception (the ValueError / FileExistsError validations and
exceptions out of the authenticate-only branch). -/
def mainRun (args : CliArgs) (env : RunEnv) (picks : Nat → Char) :
    Nat × Option String :=
  if args.authenticate then
    match get_refresh_token env.appKey true env.configFile env.login with
    | .ok _ _ => (0, none)
    | .exit42 => (42, none)
    | .error => (1, none)
  else if args.source = "" then (1, none)
  else if !args.source_exists then (1, none)
  else if args.destination = "" then (1, none)
  else if args.zip && args.zip_output_exists then (1, none)
  else
    let pw : Option String :=
      if args.zip then
        some (match args.password with
          | none => generate_password picks
          | some p => if p = "" then generate_password picks else p)
      else args.password
    match (big_file_upload env none true args.root_team pw).2 with
    | .exit42 => (42, none)
    | .error => (42, none)
    | .ok _ _ => (0, if args.zip then pw else none)

/-- A remote entry as the listing returns it: dropbox.files.FileMetadata or
FolderMetadata, with name and path_lower. -/
inductive RemoteEntry where
  | file (name path_lower : String)
  | folder (name path_lower : String)
deriving DecidableEq, Repr

/-- One page of a folder listing: the entries plus the has_more flag.  The
continuation cursor is implicit: the next page in the same path's list. -/
structure Page where
  entries : List RemoteEntry
  hasMore : Bool
deriving DecidableEq, Repr

/-- The remote store: for each folder path, the pages that
files_list_folder and files_list_folder_continue deliver in order. -/
structure RemoteFS where
  pages : String → List Page

mutual

/-- download_folder: lists the folder and walks the pages.  Returns
(total_files, total_folders, listing_calls) where listing_calls counts the
files_list_folder and files_list_folder_continue calls made, across
recursion into subfolders — an observer of the trace, the code itself only
returns the two counts.  File downloads are modelled as succeeding; `fuel`
bounds the folder recursion depth (the code recurses unboundedly).
A continue call for which the server has no page, or exhausted fuel, gives
none. -/
def download_folder (fs : RemoteFS) : Nat → String → Option (Nat × Nat × Nat)
  | 0, _ => none
  | fuel + 1, path =>
    match fs.pages path with
    | [] => none
    | p :: rest =>
      match downloadPages fs fuel (p :: rest) with
      | none => none
      | some (f, d, c) => some (f, d, c + 1)
termination_by fuel _ => (fuel, 0, 0)

/-- The while-True loop over the current response and its continuations. -/
def downloadPages (fs : RemoteFS) (fuel : Nat) : List Page → Option (Nat × Nat × Nat)
  | [] => none
  | page :: rest =>
    match downloadEntries fs fuel page.entries with
    | none => none
    | some (f, d, c) =>
      if page.hasMore then
        match downloadPages fs fuel rest with
        | none => none
        | some (f2, d2, c2) => some (f + f2, d + d2, c + 1 + c2)
      else some (f, d, c)
termination_by pages => (fuel, 2, pages.length)

/-- The for-loop over one page's entries: a file counts one download, a
folder recurses and contributes 1 + its subfolders and its files. -/
def downloadEntries (fs : RemoteFS) (fuel : Nat) :
    List RemoteEntry → Option (Nat × Nat × Nat)
  | [] => some (0, 0, 0)
  | .file _ _ :: rest =>
    match downloadEntries fs fuel rest with
    | none => none
    | some (f, d, c) => some (f + 1, d, c)
  | .folder _ pl :: rest =>
    match download_folder fs fuel pl with
    | none => none
    | some (sf, sd, sc) =>
      match downloadEntries fs fuel rest with
      | none => none
      | some (f, d, c) => some (sf + f, 1 + sd + d, sc + c)
termination_by entries => (fuel, 1, entries.length)

end

/-- True exactly for file entries. -/
def isFileEntry : RemoteEntry → Bool
  | .file _ _ => true
  | .folder _ _ => false

/-! urllib.parse model.  URLs are modelled as lists of characters; strings
are treated at the code-unit level, exact for ASCII input (percent-decoded
bytes are represented as code points below 256; the utf-8 decoding with
error replacement that CPython applies to non-ASCII percent sequences is
not reproduced, and bracketed (IPv6) netloc hosts, which CPython validates
with ipaddress, are conservatively rejected). -/

def isAsciiAlpha (c : Char) : Bool :=
  ('a' ≤ c && c ≤ 'z') || ('A' ≤ c && c ≤ 'Z')

/-- scheme_chars of urllib.parse. -/
def isSchemeChar (c : Char) : Bool :=
  isAsciiAlpha c || c.isDigit || c = '+' || c = '-' || c = '.'

/-- The WHATWG C0-control-or-space class lstripped by urlsplit. -/
def isC0OrSpace (c : Char) : Bool := c.toNat ≤ 32

/-- The unsafe bytes tab, CR, LF that urlsplit removes everywhere. -/
def removeUnsafe (l : List Char) : List Char :=
  l.filter fun c => !(c = '\t' || c = '\r' || c = '\n')

/-- Scheme detection: the first colon must sit after an initial ASCII
letter followed by scheme characters; the scan stops at the first character
that is neither, exactly like the find-and-check of urlsplit. -/
def schemeScan : List Char → List Char → Option (List Char × List Char)
  | _, [] => none
  | acc, c :: rest =>
    if c = ':' then some (acc.reverse, rest)
    else if isSchemeChar c then schemeScan (c :: acc) rest
    else none

def schemeSplit (l : List Char) : Option (List Char × List Char) :=
  match l with
  | [] => none
  | c :: rest => if isAsciiAlpha c then schemeScan [c] rest else none

def isNetlocEnd (c : Char) : Bool := c = '/' || c = '?' || c = '#'

structure SplitResult where
  scheme : List Char
  netloc : List Char
  path : List Char
  query : List Char
  fragment : List Char
deriving DecidableEq, Repr

/-- The fragment and query splits of urlsplit: fragment at the first hash,
then query at the first question mark. -/
def splitFragQuery (scheme netloc rest : List Char) : SplitResult :=
  let fr := breakAtFirst (fun c => c = '#') rest
  let a := fr.1
  let fragment := match fr.2 with
    | some f => f
    | none => []
  let qr := breakAtFirst (fun c => c = '?') a
  let query := match qr.2 with
    | some q => q
    | none => []
  ⟨scheme, netloc, qr.1, query, fragment⟩

/-- urlsplit of Python 3.11: lstrip C0 controls and space, remove tab/CR/LF,
split off a scheme (lowercased), a //netloc (up to the first of '/', '?',
'#'; bracketed hosts rejected), the fragment and the query. -/
def urlsplit (url : List Char) : Option SplitResult :=
  let u1 := removeUnsafe (url.dropWhile isC0OrSpace)
  let sp := schemeSplit u1
  let scheme := match sp with
    | some s => s.1.map Char.toLower
    | none => []
  let rest := match sp with
    | some s => s.2
    | none => u1
  if rest.take 2 = ['/', '/'] then
    let netloc := (rest.drop 2).takeWhile fun c => !isNetlocEnd c
    let rest2 := (rest.drop 2).dropWhile fun c => !isNetlocEnd c
    if netloc.contains '[' || netloc.contains ']' then none
    else some (splitFragQuery scheme netloc rest2)
  else some (splitFragQuery scheme [] rest)

/-- Split at the last slash: returns the prefix up to and including the
last '/' and the suffix after it; the whole list as suffix when there is
no slash. -/
def splitLastSlash (p : List Char) : List Char × List Char :=
  match breakAtFirst (fun c => c = '/') p.reverse with
  | (ra, some rb) => ((rb.reverse ++ ['/']), ra.reverse)
  | (_, none) => ([], p)

/-- The _splitparams helper: params begin after the first semicolon that
follows the last slash (or the first semicolon at all when the path has no
slash); no such semicolon means no params. -/
def splitparams (p : List Char) : List Char × List Char :=
  if p.contains '/' then
    let s := splitLastSlash p
    match breakAtFirst (fun c => c = ';') s.2 with
    | (b, some rest) => (s.1 ++ b, rest)
    | (_, none) => (p, [])
  else
    match breakAtFirst (fun c => c = ';') p with
    | (b, some rest) => (b, rest)
    | (_, none) => (p, [])

structure ParseResult where
  scheme : List Char
  netloc : List Char
  path : List Char
  params : List Char
  query : List Char
  fragment : List Char
deriving DecidableEq, Repr

/-- urlparse = urlsplit plus the params split on the path. -/
def urlparse (url : List Char) : Option ParseResult :=
  match urlsplit url with
  | none => none
  | some s =>
    if s.path.contains ';' then
      let pp := splitparams s.path
      some ⟨s.scheme, s.netloc, pp.1, pp.2, s.query, s.fragment⟩
    else some ⟨s.scheme, s.netloc, s.path, [], s.query, s.fragment⟩

/-- uses_netloc of urllib.parse (the schemes for which urlunsplit restores
a // part). -/
def uses_netloc : List (List Char) :=
  [[], "ftp".data, "http".data, "gopher".data, "nntp".data, "telnet".data,
   "imap".data, "wais".data, "file".data, "mms".data, "https".data,
   "shttp".data, "snews".data, "prospero".data, "rtsp".data, "rtsps".data,
   "rtspu".data, "rsync".data, "svn".data, "svn+ssh".data, "sftp".data,
   "nfs".data, "git".data, "git+ssh".data, "ws".data, "wss".data]

/-- urlunsplit of Python 3.11. -/
def urlunsplit (scheme netloc path query fragment : List Char) : List Char :=
  let url1 :=
    if netloc ≠ [] ∨ (scheme ≠ [] ∧ scheme ∈ uses_netloc ∧ path.take 2 ≠ ['/', '/']) then
      let url0 := if path ≠ [] ∧ path.head? ≠ some '/' then '/' :: path else path
      '/' :: '/' :: (netloc ++ url0)
    else path
  let url2 := if scheme ≠ [] then scheme ++ ':' :: url1 else url1
  let url3 := if query ≠ [] then url2 ++ '?' :: query else url2
  if fragment ≠ [] then url3 ++ '#' :: fragment else url3

/-- urlunparse: rejoin path and params, then urlunsplit. -/
def urlunparse (r : ParseResult) : List Char :=
  urlunsplit r.scheme r.netloc
    (if r.params ≠ [] then r.path ++ ';' :: r.params else r.path)
    r.query r.fragment

/-- The path transformation of one urlparse/urlunparse round trip: the params
split of urlparse (applied only when the path has a semicolon) followed by the
conditional rejoin of urlunparse. -/
def pathNorm (p : List Char) : List Char :=
  let pp := if p.contains ';' then splitparams p else (p, [])
  if pp.2 = [] then pp.1 else pp.1 ++ ';' :: pp.2

/-- The always-safe characters of urllib.parse.quote with safe set empty,
as urlencode uses through quote_plus. -/
def isUnquotedSafe (c : Char) : Bool :=
  isAsciiAlpha c || c.isDigit || c = '_' || c = '.' || c = '-' || c = '~'

def hexUpperDigit (n : Nat) : Char := "0123456789ABCDEF".data.getD n '0'

/-- Percent-encode one byte with uppercase hex. -/
def quoteChar (c : Char) : List Char :=
  ['%', hexUpperDigit (c.toNat / 16 % 16), hexUpperDigit (c.toNat % 16)]

/-- quote_plus with an empty safe set: safe characters stay, the space
becomes a plus, everything else is percent-encoded. -/
def quote_plus (l : List Char) : List Char :=
  l.flatMap fun c =>
    if isUnquotedSafe c then [c]
    else if c = ' ' then ['+']
    else quoteChar c

def isHexDig (c : Char) : Bool :=
  c.isDigit || ('a' ≤ c && c ≤ 'f') || ('A' ≤ c && c ≤ 'F')

def hexVal (c : Char) : Nat :=
  if c.isDigit then c.toNat - 48
  else if 'a' ≤ c && c ≤ 'f' then c.toNat - 87
  else c.toNat - 55

/-- unquote_plus: pluses become spaces and two-hex-digit percent escapes
decode to the byte; anything else stays literal. -/
def unquote_plus : List Char → List Char
  | [] => []
  | '%' :: h :: lo :: rest =>
    if isHexDig h && isHexDig lo then
      Char.ofNat (16 * hexVal h + hexVal lo) :: unquote_plus rest
    else '%' :: unquote_plus (h :: lo :: rest)
  | '+' :: rest => ' ' :: unquote_plus rest
  | c :: rest => c :: unquote_plus rest

/-- One name=value chunk of parse_qsl: empty chunks, chunks with no equals
sign and chunks with a blank value are skipped, names and values are
plus/percent-decoded. -/
def qsChunk (nv : List Char) : Option (List Char × List Char) :=
  if nv = [] then none
  else
    match breakAtFirst (fun c => c = '=') nv with
    | (_, none) => none
    | (name, some value) =>
      if value = [] then none
      else some (unquote_plus name, unquote_plus value)

/-- parse_qsl with the default options: split the query on ampersands and
parse each chunk. -/
def parse_qsl (qs : List Char) : List (List Char × List Char) :=
  (qs.splitOn '&').filterMap qsChunk

/-- Append a value under a key, keeping dict insertion order: an existing
key keeps its position and collects the value, a new key goes to the end. -/
def addPair (d : List (List Char × List (List Char))) (k v : List Char) :
    List (List Char × List (List Char)) :=
  match d with
  | [] => [(k, [v])]
  | (k2, vs) :: rest =>
    if k2 = k then (k2, vs ++ [v]) :: rest else (k2, vs) :: addPair rest k v

/-- parse_qs: group the parsed pairs into an ordered dict of value lists. -/
def parse_qs (qs : List Char) : List (List Char × List (List Char)) :=
  (parse_qsl qs).foldl (fun d kv => addPair d kv.1 kv.2) []

/-- urlencode with doseq=True over the ordered dict: each key with each of
its values in order, quote_plus applied to both. -/
def urlencode (d : List (List Char × List (List Char))) : List Char :=
  List.intercalate ['&']
    (d.flatMap fun kv => kv.2.map fun v => quote_plus kv.1 ++ '=' :: quote_plus v)

/-- The dict transform of the source: if query_params.get('dl') == ['0'],
set query_params['dl'] = ['1'] (in place, keeping the key's position). -/
def forceDl (d : List (List Char × List (List Char))) :
    List (List Char × List (List Char)) :=
  match d.lookup "dl".data with
  | some vs =>
    if vs = ["0".data] then
      d.map fun kv => if kv.1 = "dl".data then (kv.1, ["1".data]) else kv
    else d
  | none => d

/-- convert_dropbox_url_into_download_only: urlparse, flip dl=0 to dl=1 in
the parsed query, re-encode the query and urlunparse, all other components
passed through.  None models the ValueError that urlsplit can raise. -/
def convert_dropbox_url_into_download_only (the_url : String) : Option String :=
  match urlparse the_url.data with
  | none => none
  | some r =>
    let query_params := parse_qs r.query
    let new_query := urlencode (forceDl query_params)
    some (String.mk (urlunparse ⟨r.scheme, r.netloc, r.path, r.params,
      new_query, r.fragment⟩))

/-! Theorems. -/

theorem chunk_eq : CHUNK_SIZE = 4194304 := by norm_num [CHUNK_SIZE]

theorem uploadLoop_length (fileSize : Nat) : ∀ fuel pos offset,
    fileSize - pos ≤ fuel → pos < fileSize →
    (uploadLoop fuel fileSize pos offset).length
      = (fileSize - pos + CHUNK_SIZE - 1) / CHUNK_SIZE := by
  intro fuel
  induction fuel with
  | zero => intro pos offset hf hlt; omega
  | succ fuel ih =>
      intro pos offset hf hlt
      rw [uploadLoop, if_pos hlt]
      by_cases hle : fileSize - pos ≤ CHUNK_SIZE
      · rw [if_pos hle]
        simp only [List.length_cons, List.length_nil]
        rw [chunk_eq] at hle ⊢
        omega
      · rw [if_neg hle]
        simp only [List.length_cons]
        rw [ih (pos + CHUNK_SIZE) (pos + CHUNK_SIZE)
          (by rw [chunk_eq] at hle ⊢; omega) (by rw [chunk_eq] at hle ⊢; omega)]
        rw [chunk_eq] at hle ⊢
        omega

theorem uploadLoop_last (fileSize : Nat) : ∀ fuel pos offset,
    fileSize - pos ≤ fuel → pos < fileSize → pos = offset →
    ∃ pre off2 len, uploadLoop fuel fileSize pos offset
        = pre ++ [ApiCall.session_finish off2 off2 len]
      ∧ len = fileSize - off2 ∧ len ≤ CHUNK_SIZE := by
  intro fuel
  induction fuel with
  | zero => intro pos offset hf hlt; omega
  | succ fuel ih =>
      intro pos offset hf hlt heq
      subst heq
      rw [uploadLoop, if_pos hlt]
      by_cases hle : fileSize - pos ≤ CHUNK_SIZE
      · rw [if_pos hle]
        exact ⟨[], pos, fileSize - pos, rfl, rfl, hle⟩
      · rw [if_neg hle]
        obtain ⟨pre, off2, len, h1, h2, h3⟩ := ih (pos + CHUNK_SIZE) (pos + CHUNK_SIZE)
          (by rw [chunk_eq] at hle ⊢; omega) (by rw [chunk_eq] at hle ⊢; omega) rfl
        rw [h1]
        exact ⟨ApiCall.session_append pos pos CHUNK_SIZE :: pre, off2, len, rfl, h2, h3⟩

theorem uploadLoop_sequencing (fileSize : Nat) : ∀ fuel pos offset,
    fileSize - pos ≤ fuel → pos < fileSize → pos = offset →
    sequencingOk fileSize pos (uploadLoop fuel fileSize pos offset) = true := by
  intro fuel
  induction fuel with
  | zero => intro pos offset hf hlt; omega
  | succ fuel ih =>
      intro pos offset hf hlt heq
      subst heq
      rw [uploadLoop, if_pos hlt]
      by_cases hle : fileSize - pos ≤ CHUNK_SIZE
      · rw [if_pos hle]
        simp only [sequencingOk, Bool.and_eq_true, beq_iff_eq]
        exact ⟨⟨trivial, trivial⟩, by omega⟩
      · rw [if_neg hle]
        simp only [sequencingOk, Bool.and_eq_true, beq_iff_eq]
        exact ⟨⟨trivial, trivial⟩, ih (pos + CHUNK_SIZE) (pos + CHUNK_SIZE)
          (by rw [chunk_eq] at hle ⊢; omega) (by rw [chunk_eq] at hle ⊢; omega) rfl⟩

theorem uploadLoop_offsets (fileSize : Nat) : ∀ fuel pos offset,
    fileSize - pos ≤ fuel → pos < fileSize → pos = offset →
    List.Chain' (· < ·) (cursorOffsets (uploadLoop fuel fileSize pos offset))
    ∧ ∀ x ∈ cursorOffsets (uploadLoop fuel fileSize pos offset), pos ≤ x := by
  intro fuel
  induction fuel with
  | zero => intro pos offset hf hlt; omega
  | succ fuel ih =>
      intro pos offset hf hlt heq
      subst heq
      rw [uploadLoop, if_pos hlt]
      by_cases hle : fileSize - pos ≤ CHUNK_SIZE
      · rw [if_pos hle]
        simp only [cursorOffsets]
        exact ⟨by simp, by intro x hx; simp at hx; omega⟩
      · rw [if_neg hle]
        simp only [cursorOffsets]
        obtain ⟨hch, hbd⟩ := ih (pos + CHUNK_SIZE) (pos + CHUNK_SIZE)
          (by rw [chunk_eq] at hle ⊢; omega) (by rw [chunk_eq] at hle ⊢; omega) rfl
        constructor
        · rw [List.chain'_cons']
          refine ⟨?_, hch⟩
          intro b hb
          have hmem := List.mem_of_mem_head? hb
          have := hbd b hmem
          rw [chunk_eq] at *
          omega
        · intro x hx
          rcases List.mem_cons.mp hx with h | h
          · omega
          · have := hbd x h
            rw [chunk_eq] at *
            omega

/-- C1: for a file of `s` bytes, if `s ≤ CHUNK_SIZE` (including `s` exactly
equal to CHUNK_SIZE) `upload` issues exactly one remote write call carrying
the entire file content (payload range 0..s); if `s > CHUNK_SIZE`, after the
session-start call `upload` issues exactly `ceil((s - CHUNK_SIZE) /
CHUNK_SIZE)` further remote calls, and the final one is a finish call whose
payload is `s` minus the cursor offset at the last iteration and is at most
CHUNK_SIZE. -/
theorem upload_call_structure (s : Nat) :
    (s ≤ CHUNK_SIZE → upload s = [ApiCall.files_upload 0 s]) ∧
    (CHUNK_SIZE < s →
      ∃ rest, upload s = ApiCall.session_start 0 CHUNK_SIZE :: rest ∧
        rest.length = (s - CHUNK_SIZE + CHUNK_SIZE - 1) / CHUNK_SIZE ∧
        ∃ pre off len, rest = pre ++ [ApiCall.session_finish off off len] ∧
          len = s - off ∧ len ≤ CHUNK_SIZE) := by
  constructor
  · intro hle
    rw [upload, if_pos hle]
  · intro hgt
    refine ⟨uploadChunked s CHUNK_SIZE CHUNK_SIZE, ?_, ?_, ?_⟩
    · rw [upload, if_neg (by omega)]
    · exact uploadLoop_length s s CHUNK_SIZE CHUNK_SIZE (by omega) hgt
    · exact uploadLoop_last s s CHUNK_SIZE CHUNK_SIZE (by omega) hgt rfl

/-- C1 witness: the boundary file of exactly CHUNK_SIZE bytes takes the
single-call path, and a 10 MiB file takes the session path with
ceil((10 MiB - 4 MiB) / 4 MiB) = 2 calls after the session start. -/
theorem upload_call_structure_witness :
    upload 4194304 = [ApiCall.files_upload 0 4194304] ∧
    (∃ rest, upload 10485760 = ApiCall.session_start 0 CHUNK_SIZE :: rest ∧
      rest.length = (10485760 - CHUNK_SIZE + CHUNK_SIZE - 1) / CHUNK_SIZE ∧
      ∃ pre off len, rest = pre ++ [ApiCall.session_finish off off len] ∧
        len = 10485760 - off ∧ len ≤ CHUNK_SIZE) :=
  ⟨(upload_call_structure 4194304).1 (by decide),
   (upload_call_structure 10485760).2 (by decide)⟩

/-- C2: in the chunked path the chunks are sent strictly in file order as
contiguous ranges covering the file exactly (no byte twice, none skipped,
lengths summing to `s`), every append/finish call carries a cursor offset
equal to the bytes already sent, cursor offsets strictly increase, and a
10 MiB file produces exactly the three calls session-start (4 MiB),
append (4 MiB at offset 4194304), finish (2 MiB at offset 8388608). -/
theorem upload_chunked_invariants (s : Nat) (h : CHUNK_SIZE < s) :
    sequencingOk s 0 (upload s) = true ∧
    List.Chain' (· < ·) (cursorOffsets (upload s)) ∧
    upload 10485760 = [ApiCall.session_start 0 4194304,
      ApiCall.session_append 4194304 4194304 4194304,
      ApiCall.session_finish 8388608 8388608 2097152] := by
  refine ⟨?_, ?_, by decide⟩
  · rw [upload, if_neg (by omega)]
    simp only [sequencingOk, Bool.and_eq_true, beq_iff_eq, Nat.zero_add]
    exact ⟨trivial, uploadLoop_sequencing s s CHUNK_SIZE CHUNK_SIZE (by omega) h rfl⟩
  · rw [upload, if_neg (by omega)]
    simp only [cursorOffsets]
    exact (uploadLoop_offsets s s CHUNK_SIZE CHUNK_SIZE (by omega) h rfl).1

/-- C2 witness at the 10 MiB file of the end-to-end scenario. -/
theorem upload_chunked_invariants_witness :
    sequencingOk 10485760 0 (upload 10485760) = true ∧
    List.Chain' (· < ·) (cursorOffsets (upload 10485760)) ∧
    upload 10485760 = [ApiCall.session_start 0 4194304,
      ApiCall.session_append 4194304 4194304 4194304,
      ApiCall.session_finish 8388608 8388608 2097152] :=
  upload_chunked_invariants 10485760 (by decide)

theorem breakAtFirst_not_found (p : Char → Bool) (l : List Char)
    (h : ∀ c ∈ l, ¬ p c = true) : breakAtFirst p l = (l, none) := by
  induction l with
  | nil => rfl
  | cons c t ih =>
      rw [breakAtFirst, if_neg (h c (by simp))]
      rw [ih (fun x hx => h x (by simp [hx]))]

theorem breakAtFirst_found (p : Char → Bool) (a : List Char) (b : Char)
    (t : List Char) (ha : ∀ c ∈ a, ¬ p c = true) (hb : p b = true) :
    breakAtFirst p (a ++ b :: t) = (a, some t) := by
  induction a with
  | nil => simp [breakAtFirst, hb]
  | cons c r ih =>
      rw [List.cons_append, breakAtFirst, if_neg (ha c (by simp))]
      rw [ih (fun x hx => ha x (by simp [hx]))]

theorem dropWhile_append_of_forall (p : Char → Bool) (sp l : List Char)
    (hsp : ∀ c ∈ sp, p c = true) :
    (sp ++ l).dropWhile p = l.dropWhile p := by
  induction sp with
  | nil => rfl
  | cons c t ih =>
      rw [List.cons_append, List.dropWhile_cons, if_pos (hsp c (by simp))]
      exact ih (fun x hx => hsp x (by simp [hx]))

theorem pyStrip_no_space (l : List Char) (h : ∀ c ∈ l, ¬ pySpace c = true) :
    pyStrip l = l := by
  show List.rdropWhile pySpace (l.dropWhile pySpace) = l
  rw [List.dropWhile_eq_self_iff.mpr (fun hl => h _ (List.get_mem l _ _))]
  exact List.rdropWhile_eq_self_iff.mpr (fun hl => h _ (List.getLast_mem hl))

theorem pyStrip_append_left_spaces (sp l : List Char)
    (hsp : ∀ c ∈ sp, pySpace c = true) :
    pyStrip (sp ++ l) = pyStrip l := by
  show List.rdropWhile pySpace ((sp ++ l).dropWhile pySpace)
    = List.rdropWhile pySpace (l.dropWhile pySpace)
  rw [dropWhile_append_of_forall pySpace sp l hsp]

/-- C10: generate_password always returns a string of exactly 12 characters,
each a lowercase hexadecimal digit; and this generated password is exactly
what a zip-mode run records in the JSON report when the user supplied no
password. -/
theorem generate_password_format (pick : Nat → Char)
    (hpick : ∀ i, pick i ∈ hexdigits) :
    (generate_password pick).length = 12 ∧
    (∀ c ∈ (generate_password pick).data, c ∈ "0123456789abcdef".data) ∧
    (∀ args env pw, args.zip = true → args.password = none →
      (mainRun args env pick).2 = some pw → pw = generate_password pick) := by
  have key : ∀ c ∈ hexdigits, c.toLower ∈ "0123456789abcdef".data := by decide
  refine ⟨?_, ?_, ?_⟩
  · simp [generate_password, String.length]
  · intro c hc
    simp only [generate_password] at hc
    obtain ⟨i, _, rfl⟩ := List.mem_map.mp hc
    exact key (pick i) (hpick i)
  · intro args env pw hz hpw hrep
    unfold mainRun at hrep
    by_cases ha : args.authenticate = true
    · rw [if_pos ha] at hrep
      rcases hg : get_refresh_token env.appKey true env.configFile env.login with
          ⟨rt, f⟩ | _ | _ <;> rw [hg] at hrep <;> simp at hrep
    · rw [if_neg ha] at hrep
      by_cases h1 : args.source = ""
      · rw [if_pos h1] at hrep
        simp at hrep
      · rw [if_neg h1] at hrep
        by_cases h2 : (!args.source_exists) = true
        · rw [if_pos h2] at hrep
          simp at hrep
        · rw [if_neg h2] at hrep
          by_cases h3 : args.destination = ""
          · rw [if_pos h3] at hrep
            simp at hrep
          · rw [if_neg h3] at hrep
            by_cases h4 : (args.zip && args.zip_output_exists) = true
            · rw [if_pos h4] at hrep
              simp at hrep
            · rw [if_neg h4] at hrep
              simp only [hz, hpw, if_pos] at hrep
              rcases hb : (big_file_upload env none true args.root_team
                  (some (generate_password pick))).2 with ⟨u, p⟩ | _ | _ <;>
                rw [hb] at hrep <;> simp_all

/-- C10 witness at the constant draw sequence 'A'. -/
theorem generate_password_format_witness :
    (generate_password (fun _ => 'A')).length = 12 ∧
    ∀ c ∈ (generate_password (fun _ => 'A')).data, c ∈ "0123456789abcdef".data :=
  ⟨(generate_password_format (fun _ => 'A')
      (by intro i; show 'A' ∈ hexdigits; decide)).1,
   (generate_password_format (fun _ => 'A')
      (by intro i; show 'A' ∈ hexdigits; decide)).2.1⟩

theorem dropWhile_append_split (p : Char → Bool) (a b : List Char) :
    (a ++ b).dropWhile p
      = if a.dropWhile p = [] then b.dropWhile p else a.dropWhile p ++ b := by
  induction a with
  | nil => simp
  | cons c t ih =>
      by_cases hc : p c
      · rw [List.cons_append, List.dropWhile_cons, if_pos hc, ih,
          List.dropWhile_cons, if_pos hc]
      · rw [List.cons_append, List.dropWhile_cons, if_neg hc,
          List.dropWhile_cons, if_neg hc]
        simp

theorem rdropWhile_cons_not (p : Char → Bool) (c : Char) (t : List Char)
    (hc : ¬ p c = true) :
    List.rdropWhile p (c :: t) = c :: List.rdropWhile p t := by
  unfold List.rdropWhile
  rw [List.reverse_cons, dropWhile_append_split]
  by_cases h : t.reverse.dropWhile p = []
  · rw [if_pos h, h]
    simp [List.dropWhile, hc]
  · rw [if_neg h]
    simp

theorem pyStrip_cons_not_space (c : Char) (t : List Char)
    (hc : ¬ pySpace c = true) :
    pyStrip (c :: t) = c :: List.rdropWhile pySpace t := by
  show List.rdropWhile pySpace ((c :: t).dropWhile pySpace) = _
  rw [List.dropWhile_cons, if_neg hc, rdropWhile_cons_not pySpace c t hc]

theorem classifyIniLine_header (name : List Char) (hne : name ≠ [])
    (hchars : ∀ c ∈ name, pySpace c = false) :
    classifyIniLine ('[' :: (name ++ [']'])) = .header name := by
  have hall : ∀ c ∈ '[' :: (name ++ [']']), ¬ pySpace c = true := by
    intro c hc
    rcases List.mem_cons.mp hc with rfl | hc2
    · decide
    · rcases List.mem_append.mp hc2 with h | h
      · simp [hchars c h]
      · simp at h; subst h; decide
  have hs : pyStrip ('[' :: (name ++ [']'])) = '[' :: (name ++ [']']) :=
    pyStrip_no_space _ hall
  have h2 : ('[' :: (name ++ [']'])).getLast? = some ']' := by
    show (('[' :: name) ++ [']']).getLast? = some ']'
    exact List.getLast?_concat _
  have h3 : (('[' :: (name ++ [']'])).drop 1).dropLast = name := by
    simp [List.dropLast_concat]
  rw [classifyIniLine, hs]
  rw [if_neg (by simp)]
  rw [if_pos (by simp), if_pos h2, h3, if_pos hne]

theorem classifyIniLine_keyval (key v : List Char) (hne : key ≠ [])
    (hchars : ∀ c ∈ key, pySpace c = false ∧ isIniDelim c = false ∧ c ≠ '[')
    (hv : pyStrip v = v) :
    classifyIniLine (key ++ ' ' :: '=' :: ' ' :: v)
      = .entry (key.map Char.toLower) v := by
  obtain ⟨k0, krest, rfl⟩ : ∃ k0 krest, key = k0 :: krest := by
    cases key with
    | nil => exact absurd rfl hne
    | cons a b => exact ⟨a, b, rfl⟩
  have hk0 := hchars k0 (by simp)
  have hs : pyStrip ((k0 :: krest) ++ ' ' :: '=' :: ' ' :: v)
      = k0 :: List.rdropWhile pySpace (krest ++ ' ' :: '=' :: ' ' :: v) := by
    rw [List.cons_append]
    exact pyStrip_cons_not_space k0 _ (by simp [hk0.1])
  have hsplit : breakAtFirst isIniDelim ((k0 :: krest) ++ ' ' :: '=' :: ' ' :: v)
      = ((k0 :: krest) ++ [' '], some (' ' :: v)) := by
    have heq : (k0 :: krest) ++ ' ' :: '=' :: ' ' :: v
        = ((k0 :: krest) ++ [' ']) ++ '=' :: (' ' :: v) := by simp
    rw [heq]
    refine breakAtFirst_found isIniDelim _ '=' _ ?_ (by decide)
    intro c hc
    rcases List.mem_append.mp hc with h | h
    · simp [(hchars c h).2.1]
    · simp at h; subst h; decide
  have hkey : pyStrip ((k0 :: krest) ++ [' ']) = k0 :: krest := by
    show List.rdropWhile pySpace (((k0 :: krest) ++ [' ']).dropWhile pySpace) = _
    rw [List.cons_append, List.dropWhile_cons, if_neg (by simp [hk0.1])]
    show List.rdropWhile pySpace ((k0 :: krest) ++ [' ']) = k0 :: krest
    rw [List.rdropWhile_concat_pos pySpace (k0 :: krest) ' ' (by decide)]
    exact List.rdropWhile_eq_self_iff.mpr
      (fun hl => by simp [(hchars _ (List.getLast_mem hl)).1])
  have hval : pyStrip (' ' :: v) = v := by
    have : (' ' :: v) = [' '] ++ v := rfl
    rw [this, pyStrip_append_left_spaces [' '] v
      (by intro c hc; simp at hc; subst hc; decide), hv]
  rw [classifyIniLine, hs]
  rw [if_neg (by simp)]
  rw [if_neg (by simp [hk0.2.2])]
  rw [if_neg (by simp [hk0.1])]
  rw [hsplit]
  simp only [hkey]
  rw [if_neg (by simp), hval]

theorem classifyIniLine_blank : classifyIniLine [] = .blank := rfl

/-- Parsing the file written by the interactive branch yields exactly the
one section with the five options in assignment order. -/
theorem iniParse_write (appKey : String) (r : TokenRecord)
    (hak1 : appKey.data ≠ [])
    (hak2 : ∀ c ∈ appKey.data, pySpace c = false ∧ c ≠ ']')
    (hv : ∀ v ∈ [r.access_token, r.refresh_token, r.account_id, r.scope,
      r.expiration], pyStrip v.data = v.data) :
    iniParseLines (iniWriteSection appKey r)
      = some [(appKey.data,
          [("access_token".data, r.access_token.data),
           ("refresh_token".data, r.refresh_token.data),
           ("account_id".data, r.account_id.data),
           ("scope".data, r.scope.data),
           ("expiration".data, r.expiration.data)])] := by
  have hlines : (iniWriteSection appKey r).map String.data
      = ['[' :: (appKey.data ++ [']']),
         "access_token".data ++ ' ' :: '=' :: ' ' :: r.access_token.data,
         "refresh_token".data ++ ' ' :: '=' :: ' ' :: r.refresh_token.data,
         "account_id".data ++ ' ' :: '=' :: ' ' :: r.account_id.data,
         "scope".data ++ ' ' :: '=' :: ' ' :: r.scope.data,
         "expiration".data ++ ' ' :: '=' :: ' ' :: r.expiration.data,
         []] := by
    simp only [iniWriteSection, List.map]
    refine congrArg₂ _ ?_ (congrArg₂ _ ?_ (congrArg₂ _ ?_ (congrArg₂ _ ?_
      (congrArg₂ _ ?_ (congrArg₂ _ ?_ rfl))))) <;>
      rw [String.data_append] <;> try rw [String.data_append]
    all_goals rfl
  have hch : classifyIniLine ('[' :: (appKey.data ++ [']'])) = .header appKey.data :=
    classifyIniLine_header appKey.data hak1 (fun c hc => (hak2 c hc).1)
  have hce : ∀ key : String, ∀ v : List Char,
      (∀ c ∈ key.data, pySpace c = false ∧ isIniDelim c = false ∧ c ≠ '[') →
      key.data ≠ [] → pyStrip v = v →
      List.map Char.toLower key.data = key.data →
      classifyIniLine (key.data ++ ' ' :: '=' :: ' ' :: v) = .entry key.data v := by
    intro key v hchars hne hstrip hlower
    rw [classifyIniLine_keyval key.data v hne hchars hstrip, hlower]
  have hce1 := hce "access_token" r.access_token.data (by decide) (by decide)
    (hv _ (by simp)) (by decide)
  have hce2 := hce "refresh_token" r.refresh_token.data (by decide) (by decide)
    (hv _ (by simp)) (by decide)
  have hce3 := hce "account_id" r.account_id.data (by decide) (by decide)
    (hv _ (by simp)) (by decide)
  have hce4 := hce "scope" r.scope.data (by decide) (by decide)
    (hv _ (by simp)) (by decide)
  have hce5 := hce "expiration" r.expiration.data (by decide) (by decide)
    (hv _ (by simp)) (by decide)
  rw [iniParseLines, hlines]
  simp only [iniParseGo, hch, hce1, hce2, hce3, hce4, hce5, classifyIniLine_blank]
  simp

/-- C6: an absent credential file is a normal first-run condition when
interactive: the interactive login runs, the full record is persisted and
its refresh token is returned; with interactive false the absence raises;
and an existing file whose content configparser cannot parse, or that lacks
the section or option, raises rather than being silently ignored. -/
theorem get_refresh_token_behavior (appKey : String) (tokens : TokenRecord)
    (lines : List String) (login : AuthFinish)
    (htok : tokens.refresh_token.data.contains '%' = false) :
    get_refresh_token appKey false .absent login = .error ∧
    get_refresh_token appKey true .absent (.ok tokens)
      = .ok tokens.refresh_token (.present (iniWriteSection appKey tokens)) ∧
    (iniParseLines lines = none →
      get_refresh_token appKey true (.present lines) login = .error) ∧
    (∀ sections, iniParseLines lines = some sections →
      iniGetValue sections appKey.data "refresh_token".data = none →
      get_refresh_token appKey true (.present lines) login = .error) := by
  refine ⟨rfl, ?_, ?_, ?_⟩
  · simp only [get_refresh_token, Bool.not_true, Bool.false_eq_true, if_false,
      interpolate, htok, if_false]
  · intro hp
    simp only [get_refresh_token, hp]
  · intro sections hp hg
    simp only [get_refresh_token, hp, hg]

/-- C6 witness: a concrete run with token record and a malformed file. -/
theorem get_refresh_token_behavior_witness :
    get_refresh_token "app" false .absent .runtime_error = .error ∧
    get_refresh_token "app" true .absent
        (.ok ⟨"at", "rt", "ai", "sc", "ex"⟩)
      = .ok "rt" (.present (iniWriteSection "app" ⟨"at", "rt", "ai", "sc", "ex"⟩)) ∧
    (iniParseLines ["garbage"] = none →
      get_refresh_token "app" true (.present ["garbage"]) .runtime_error = .error) ∧
    (∀ sections, iniParseLines ["garbage"] = some sections →
      iniGetValue sections "app".data "refresh_token".data = none →
      get_refresh_token "app" true (.present ["garbage"]) .runtime_error = .error) :=
  get_refresh_token_behavior "app" ⟨"at", "rt", "ai", "sc", "ex"⟩
    ["garbage"] .runtime_error (by decide)

/-- C8: saving a credential record through the interactive branch of
get_refresh_token and reloading it yields byte-identical refresh_token,
account_id and scope values. -/
theorem credential_roundtrip (appKey : String) (r : TokenRecord)
    (hak1 : appKey.data ≠ [])
    (hak2 : ∀ c ∈ appKey.data, pySpace c = false ∧ c ≠ ']')
    (hsafe : ∀ v ∈ [r.access_token, r.refresh_token, r.account_id, r.scope,
      r.expiration], iniSafeValue v) :
    ∃ sections, iniParseLines (iniWriteSection appKey r) = some sections ∧
      iniGetValue sections appKey.data "refresh_token".data
        = some r.refresh_token.data ∧
      iniGetValue sections appKey.data "account_id".data
        = some r.account_id.data ∧
      iniGetValue sections appKey.data "scope".data = some r.scope.data := by
  have e1 : ("refresh_token".data == "access_token".data) = false := by decide
  have e2 : ("account_id".data == "access_token".data) = false := by decide
  have e3 : ("account_id".data == "refresh_token".data) = false := by decide
  have e4 : ("scope".data == "access_token".data) = false := by decide
  have e5 : ("scope".data == "refresh_token".data) = false := by decide
  have e6 : ("scope".data == "account_id".data) = false := by decide
  have hrt := (hsafe r.refresh_token (by simp)).2.2.2
  have hai := (hsafe r.account_id (by simp)).2.2.2
  have hsc := (hsafe r.scope (by simp)).2.2.2
  refine ⟨_, iniParse_write appKey r hak1 hak2
    (fun v hv => (hsafe v hv).1), ?_, ?_, ?_⟩ <;>
    simp only [iniGetValue, List.lookup, beq_self_eq_true, e1, e2, e3, e4, e5, e6,
      interpolate, hrt, hai, hsc, Bool.false_eq_true, if_false]

/-- C8 witness at a concrete record. -/
theorem credential_roundtrip_witness :
    ∃ sections, iniParseLines (iniWriteSection "app"
        ⟨"at", "rt", "ai", "sc", "ex"⟩) = some sections ∧
      iniGetValue sections "app".data "refresh_token".data = some "rt".data ∧
      iniGetValue sections "app".data "account_id".data = some "ai".data ∧
      iniGetValue sections "app".data "scope".data = some "sc".data :=
  credential_roundtrip "app" ⟨"at", "rt", "ai", "sc", "ex"⟩
    (by decide) (by decide) (by decide)

theorem bigUploadBody_link_ordering (env : RunEnv) (use_team_root : Bool)
    (password : Option String) :
    ((password = none ∨ password = some "") →
      Event.create_link ∉ (bigUploadBody env use_team_root password).1) ∧
    (Event.create_link ∈ (bigUploadBody env use_team_root password).1 →
      env.uploadOk = true ∧
      (bigUploadBody env use_team_root password).1.indexOf Event.upload_call
        < (bigUploadBody env use_team_root password).1.indexOf Event.sleep ∧
      (bigUploadBody env use_team_root password).1.indexOf Event.sleep
        < (bigUploadBody env use_team_root password).1.indexOf Event.create_link ∧
      Event.upload_call ∈ (bigUploadBody env use_team_root password).1 ∧
      Event.sleep ∈ (bigUploadBody env use_team_root password).1) := by
  rcases password with _ | p
  · constructor
    · intro _
      rcases use_team_root with _ | _ <;> rcases hns : env.nsOk with _ | _ <;>
        rcases hup : env.uploadOk with _ | _ <;>
        simp [bigUploadBody, hns, hup]
    · intro hmem
      exfalso
      rcases use_team_root with _ | _ <;> rcases hns : env.nsOk with _ | _ <;>
        rcases hup : env.uploadOk with _ | _ <;>
        simp [bigUploadBody, hns, hup] at hmem
  · by_cases hp : p = ""
    · subst hp
      constructor
      · intro _
        rcases use_team_root with _ | _ <;> rcases hns : env.nsOk with _ | _ <;>
          rcases hup : env.uploadOk with _ | _ <;>
          simp [bigUploadBody, hns, hup]
      · intro hmem
        exfalso
        rcases use_team_root with _ | _ <;> rcases hns : env.nsOk with _ | _ <;>
          rcases hup : env.uploadOk with _ | _ <;>
          simp [bigUploadBody, hns, hup] at hmem
    · constructor
      · intro h
        rcases h with h | h
        · exact absurd h (by simp)
        · rw [Option.some.injEq] at h
          exact absurd h hp
      · intro hmem
        rcases use_team_root with _ | _ <;> rcases hns : env.nsOk with _ | _ <;>
          rcases hup : env.uploadOk with _ | _ <;>
          rcases hlk : env.linkOk with _ | _ <;>
          simp [bigUploadBody, hns, hup, hlk, hp] at hmem ⊢ <;>
          simp [List.indexOf, List.findIdx, List.findIdx.go]


/-- C9: in big_file_upload the share link is created only after the upload
call has returned successfully, with the settling sleep strictly between
the upload call and the link call; and no share link is created at all when
no password was requested (None, or the falsy empty string). -/
theorem big_file_upload_link_ordering (env : RunEnv) (cachedToken : Option String)
    (interactive use_team_root : Bool) (password : Option String) :
    ((password = none ∨ password = some "") →
      Event.create_link ∉ (big_file_upload env cachedToken interactive
        use_team_root password).1) ∧
    (Event.create_link ∈ (big_file_upload env cachedToken interactive
        use_team_root password).1 →
      env.uploadOk = true ∧
      (big_file_upload env cachedToken interactive use_team_root
          password).1.indexOf Event.upload_call
        < (big_file_upload env cachedToken interactive use_team_root
          password).1.indexOf Event.sleep ∧
      (big_file_upload env cachedToken interactive use_team_root
          password).1.indexOf Event.sleep
        < (big_file_upload env cachedToken interactive use_team_root
          password).1.indexOf Event.create_link ∧
      Event.upload_call ∈ (big_file_upload env cachedToken interactive
        use_team_root password).1) := by
  obtain ⟨hbody1, hbody2⟩ := bigUploadBody_link_ordering env use_team_root password
  rcases cachedToken with _ | tok
  · rcases hg : get_refresh_token env.appKey interactive env.configFile env.login with
      ⟨rt, f⟩ | _ | _
    · have htr : (big_file_upload env none interactive use_team_root password).1
          = Event.get_token :: (bigUploadBody env use_team_root password).1 := by
        simp [big_file_upload, hg]
      rw [htr]
      constructor
      · intro hpw
        simp only [List.mem_cons, not_or]
        exact ⟨by simp, hbody1 hpw⟩
      · intro hmem
        have hmem2 : Event.create_link ∈ (bigUploadBody env use_team_root password).1 := by
          rcases List.mem_cons.mp hmem with h | h
          · exact absurd h (by simp)
          · exact h
        obtain ⟨h1, h2, h3, h4⟩ := hbody2 hmem2
        refine ⟨h1, ?_, ?_, List.mem_cons_of_mem _ h4.1⟩
        · rw [List.indexOf_cons_ne _ (by simp), List.indexOf_cons_ne _ (by simp)]
          omega
        · rw [List.indexOf_cons_ne _ (by simp), List.indexOf_cons_ne _ (by simp)]
          omega
    · have htr : (big_file_upload env none interactive use_team_root password).1
          = [Event.get_token] := by simp [big_file_upload, hg]
      rw [htr]
      exact ⟨fun _ => by simp, fun hmem => absurd hmem (by simp)⟩
    · have htr : (big_file_upload env none interactive use_team_root password).1
          = [Event.get_token] := by simp [big_file_upload, hg]
      rw [htr]
      exact ⟨fun _ => by simp, fun hmem => absurd hmem (by simp)⟩
  · have htr : (big_file_upload env (some tok) interactive use_team_root password).1
        = (bigUploadBody env use_team_root password).1 := rfl
    rw [htr]
    exact ⟨hbody1, fun hmem => by
      obtain ⟨h1, h2, h3, h4⟩ := hbody2 hmem
      exact ⟨h1, h2, h3, h4.1⟩⟩

/-- C9 witness: a run with a password creates the link after upload and
sleep; one without a password creates no link. -/
theorem big_file_upload_link_ordering_witness :
    (Event.create_link ∉ (big_file_upload
      ⟨"app", .absent, .ok ⟨"at", "rt", "ai", "sc", "ex"⟩, true, true, "/p",
        true, "u"⟩ none true true none).1) ∧
    ((big_file_upload ⟨"app", .absent, .ok ⟨"at", "rt", "ai", "sc", "ex"⟩,
        true, true, "/p", true, "u"⟩ none true true (some "pw")).1.indexOf
          Event.upload_call
      < (big_file_upload ⟨"app", .absent, .ok ⟨"at", "rt", "ai", "sc", "ex"⟩,
        true, true, "/p", true, "u"⟩ none true true (some "pw")).1.indexOf
          Event.sleep) :=
  ⟨(big_file_upload_link_ordering _ none true true none).1 (Or.inl rfl),
   ((big_file_upload_link_ordering ⟨"app", .absent,
       .ok ⟨"at", "rt", "ai", "sc", "ex"⟩, true, true, "/p", true, "u"⟩
       none true true (some "pw")).2 (by decide)).2.1⟩

/-- C3 counterexample: a run with no source argument is a top-level failure
that is neither an auth rejection nor an upload failure; the ValueError it
raises is uncaught, so the process exits with the interpreter's code 1 —
neither 0 nor 42, contradicting the claim that every run exits 42 on
failure and 0 otherwise. -/
theorem main_exit_counterexample :
    (mainRun ⟨false, "", true, "/dest", false, false, none, true⟩
      ⟨"app", .absent, .ok ⟨"at", "rt", "ai", "sc", "ex"⟩, true, true, "/p",
        true, "u"⟩ (fun _ => '0')).1 = 1 ∧
    (mainRun ⟨false, "", true, "/dest", false, false, none, true⟩
      ⟨"app", .absent, .ok ⟨"at", "rt", "ai", "sc", "ex"⟩, true, true, "/p",
        true, "u"⟩ (fun _ => '0')).1 ≠ 0 ∧
    (mainRun ⟨false, "", true, "/dest", false, false, none, true⟩
      ⟨"app", .absent, .ok ⟨"at", "rt", "ai", "sc", "ex"⟩, true, true, "/p",
        true, "u"⟩ (fun _ => '0')).1 ≠ 42 := by
  refine ⟨rfl, by decide, by decide⟩

/-- C3 amended: the process exits 42 when the provider rejects the pasted
authorization code (in the authenticate-only flow and inside an upload run)
and when the upload operation fails; it exits 0 on success; local
validation failures (missing source, pre-existing zip output) and
exceptions out of the authenticate-only flow terminate as uncaught
exceptions with the interpreter's exit code 1, not 42. -/
theorem main_exit_codes (args : CliArgs) (env : RunEnv) (picks : Nat → Char) :
    (args.authenticate = true → env.configFile = .absent →
      env.login = .runtime_error → (mainRun args env picks).1 = 42) ∧
    (args.authenticate = false → args.source ≠ "" → args.source_exists = true →
      args.destination ≠ "" → (args.zip = true → args.zip_output_exists = false) →
      env.configFile = .absent → env.login = .runtime_error →
      (mainRun args env picks).1 = 42) ∧
    (args.authenticate = false → args.source ≠ "" → args.source_exists = true →
      args.destination ≠ "" → (args.zip = true → args.zip_output_exists = false) →
      (∃ rt f, get_refresh_token env.appKey true env.configFile env.login
        = .ok rt f) →
      env.nsOk = true → env.uploadOk = false →
      (mainRun args env picks).1 = 42) ∧
    (args.authenticate = false → args.source ≠ "" → args.source_exists = true →
      args.destination ≠ "" → (args.zip = true → args.zip_output_exists = false) →
      (∃ rt f, get_refresh_token env.appKey true env.configFile env.login
        = .ok rt f) →
      env.nsOk = true → env.uploadOk = true → env.linkOk = true →
      (mainRun args env picks).1 = 0) ∧
    (args.authenticate = false → args.source = "" →
      (mainRun args env picks).1 = 1) ∧
    (args.authenticate = false → args.source ≠ "" → args.source_exists = true →
      args.destination ≠ "" → args.zip = true → args.zip_output_exists = true →
      (mainRun args env picks).1 = 1) ∧
    (args.authenticate = true →
      get_refresh_token env.appKey true env.configFile env.login = .error →
      (mainRun args env picks).1 = 1) := by
  refine ⟨?_, ?_, ?_, ?_, ?_, ?_, ?_⟩
  · intro ha hcf hlg
    simp [mainRun, ha, hcf, hlg, get_refresh_token]
  · intro ha hs hse hd hz hcf hlg
    have hbig : (big_file_upload env none true args.root_team
        (if args.zip = true then
          some (match args.password with
            | none => generate_password picks
            | some p => if p = "" then generate_password picks else p)
          else args.password)).2 = .exit42 := by
      simp [big_file_upload, get_refresh_token, hcf, hlg]
    rcases hzc : args.zip with _ | _ <;>
      rcases hzo : args.zip_output_exists with _ | _ <;>
      simp_all [mainRun]
  · intro ha hs hse hd hz htok hns hup
    obtain ⟨rt, f, hg⟩ := htok
    have hbody : ∀ pw, (bigUploadBody env args.root_team pw).2 = .error := by
      intro pw
      rcases hrt : args.root_team with _ | _ <;>
        simp [bigUploadBody, hns, hup]
    have hbig : ∀ pw, (big_file_upload env none true args.root_team pw).2
        = .error := by
      intro pw
      simp [big_file_upload, hg, hbody]
    rcases hzc : args.zip with _ | _ <;>
      rcases hzo : args.zip_output_exists with _ | _ <;>
      simp_all [mainRun]
  · intro ha hs hse hd hz htok hns hup hlk
    obtain ⟨rt, f, hg⟩ := htok
    have hbody : ∀ pw, ∃ u, (bigUploadBody env args.root_team pw).2
        = .ok u env.uploadedPath := by
      intro pw
      rcases pw with _ | p
      · rcases hrt : args.root_team with _ | _ <;>
          exact ⟨none, by simp [bigUploadBody, hns, hup]⟩
      · by_cases hp : p = ""
        · subst hp
          rcases hrt : args.root_team with _ | _ <;>
            exact ⟨none, by simp [bigUploadBody, hns, hup]⟩
        · rcases hrt : args.root_team with _ | _ <;>
            exact ⟨some env.linkUrl, by simp [bigUploadBody, hns, hup, hlk, hp]⟩
    have hbig : ∀ pw, ∃ u, (big_file_upload env none true args.root_team pw).2
        = .ok u env.uploadedPath := by
      intro pw
      obtain ⟨u, hu⟩ := hbody pw
      exact ⟨u, by simp [big_file_upload, hg, hu]⟩
    rcases hzc : args.zip with _ | _ <;>
      rcases hzo : args.zip_output_exists with _ | _
    · obtain ⟨u, hu⟩ := hbig args.password
      simp_all [mainRun]
    · obtain ⟨u, hu⟩ := hbig args.password
      simp_all [mainRun]
    · obtain ⟨u, hu⟩ := hbig (some (match args.password with
        | none => generate_password picks
        | some p => if p = "" then generate_password picks else p))
      simp_all [mainRun]
    · simp_all
  · intro ha hs
    simp [mainRun, ha, hs]
  · intro ha hs hse hd hz hzo
    simp [mainRun, ha, hs, hse, hd, hz, hzo]
  · intro ha hg
    simp [mainRun, ha, hg]

/-- C3 witness: concrete runs for the rejection, failure, success and
validation branches. -/
theorem main_exit_codes_witness :
    (mainRun ⟨true, "", true, "", false, false, none, true⟩
      ⟨"app", .absent, .runtime_error, true, true, "/p", true, "u"⟩
      (fun _ => '0')).1 = 42 ∧
    (mainRun ⟨false, "/s", true, "/d", false, false, none, true⟩
      ⟨"app", .absent, .ok ⟨"at", "rt", "ai", "sc", "ex"⟩, true, false, "/p",
        true, "u"⟩ (fun _ => '0')).1 = 42 ∧
    (mainRun ⟨false, "/s", true, "/d", false, false, none, true⟩
      ⟨"app", .absent, .ok ⟨"at", "rt", "ai", "sc", "ex"⟩, true, true, "/p",
        true, "u"⟩ (fun _ => '0')).1 = 0 ∧
    (mainRun ⟨false, "", true, "/d", false, false, none, true⟩
      ⟨"app", .absent, .ok ⟨"at", "rt", "ai", "sc", "ex"⟩, true, true, "/p",
        true, "u"⟩ (fun _ => '0')).1 = 1 :=
  ⟨(main_exit_codes _ _ _).1 rfl rfl rfl,
   (main_exit_codes ⟨false, "/s", true, "/d", false, false, none, true⟩
     ⟨"app", .absent, .ok ⟨"at", "rt", "ai", "sc", "ex"⟩, true, false, "/p",
       true, "u"⟩ (fun _ => '0')).2.2.1 rfl (by decide) rfl (by decide)
     (by intro h; exact rfl)
     ⟨"rt", .present (iniWriteSection "app" ⟨"at", "rt", "ai", "sc", "ex"⟩),
       by decide⟩ rfl rfl,
   (main_exit_codes ⟨false, "/s", true, "/d", false, false, none, true⟩
     ⟨"app", .absent, .ok ⟨"at", "rt", "ai", "sc", "ex"⟩, true, true, "/p",
       true, "u"⟩ (fun _ => '0')).2.2.2.1 rfl (by decide) rfl (by decide)
     (by intro h; exact rfl)
     ⟨"rt", .present (iniWriteSection "app" ⟨"at", "rt", "ai", "sc", "ex"⟩),
       by decide⟩ rfl rfl rfl,
   (main_exit_codes _ _ _).2.2.2.2.1 rfl rfl⟩

theorem downloadEntries_files (fs : RemoteFS) (fuel : Nat) :
    ∀ es : List RemoteEntry, (∀ x ∈ es, isFileEntry x = true) →
    downloadEntries fs fuel es = some (es.length, 0, 0) := by
  intro es
  induction es with
  | nil =>
      intro _
      rw [downloadEntries]
      simp
  | cons x rest ih =>
      intro h
      obtain ⟨n, p, rfl⟩ : ∃ n p, x = RemoteEntry.file n p := by
        cases x with
        | file n p => exact ⟨n, p, rfl⟩
        | folder n p =>
            have h2 := h (RemoteEntry.folder n p) (by simp)
            simp [isFileEntry] at h2
      rw [downloadEntries, ih (fun y hy => h y (by simp [hy]))]
      simp

theorem downloadPages_flags (fs : RemoteFS) (fuel : Nat) :
    ∀ ps : List Page, ∀ hne : ps ≠ [],
    (∀ p ∈ ps.dropLast, p.hasMore = true) →
    (ps.getLast hne).hasMore = false →
    (∀ p ∈ ps, ∀ x ∈ p.entries, isFileEntry x = true) →
    downloadPages fs fuel ps
      = some ((ps.map (fun p => p.entries.length)).sum, 0, ps.length - 1) := by
  intro ps
  induction ps with
  | nil => intro hne; exact absurd rfl hne
  | cons p rest ih =>
      intro hne hmore hlast hfiles
      have he := downloadEntries_files fs fuel p.entries (hfiles p (by simp))
      cases rest with
      | nil =>
          have hlast2 : p.hasMore = false := by
            simpa [List.getLast] using hlast
          rw [downloadPages, he]
          simp [hlast2]
      | cons q rest2 =>
          have hmore2 : p.hasMore = true := by
            apply hmore
            simp [List.dropLast]
          have hmore3 : ∀ x ∈ (q :: rest2).dropLast, x.hasMore = true := by
            intro x hx
            apply hmore
            rw [List.dropLast_cons_of_ne_nil (by simp)]
            exact List.mem_cons_of_mem _ hx
          have hlast3 : ((q :: rest2).getLast (by simp)).hasMore = false := by
            rw [← List.getLast_cons (by simp : (q :: rest2) ≠ [])]
            exact hlast
          have hfiles3 : ∀ x ∈ q :: rest2, ∀ y ∈ x.entries, isFileEntry y = true :=
            fun x hx => hfiles x (by simp [hx])
          have hr := ih (by simp) hmore3 hlast3 hfiles3
          rw [downloadPages, he, hr]
          simp only [hmore2, if_pos]
          simp only [Option.some.injEq, Prod.mk.injEq, List.map_cons,
            List.sum_cons, List.length_cons]
          refine ⟨trivial, trivial, ?_⟩
          omega

/-- C7: download_folder keeps fetching continuation pages while has_more is
true, aggregating every page's entries; for a listing whose pages carry
has_more flags ending in false, the run makes exactly pages.length listing
calls (one initial listing plus pages.length - 1 continuations) and counts
every file entry of every page. -/
theorem download_folder_pagination (fs : RemoteFS) (path : String)
    (pages : List Page) (fuel : Nat)
    (hpages : fs.pages path = pages) (hne : pages ≠ [])
    (hmore : ∀ p ∈ pages.dropLast, p.hasMore = true)
    (hlast : (pages.getLast hne).hasMore = false)
    (hfiles : ∀ p ∈ pages, ∀ x ∈ p.entries, isFileEntry x = true)
    (hfuel : 1 ≤ fuel) :
    download_folder fs fuel path
      = some ((pages.map (fun p => p.entries.length)).sum, 0, pages.length) := by
  obtain ⟨fuel2, rfl⟩ : ∃ f, fuel = f + 1 := ⟨fuel - 1, by omega⟩
  obtain ⟨p, rest, rfl⟩ : ∃ p rest, pages = p :: rest := by
    cases pages with
    | nil => exact absurd rfl hne
    | cons a b => exact ⟨a, b, rfl⟩
  rw [download_folder, hpages]
  simp only [downloadPages_flags fs fuel2 (p :: rest) hne hmore hlast hfiles]
  simp

/-- C7 witness: three pages with has_more true, true, false are fetched with
exactly three listing calls and their entries all processed. -/
theorem download_folder_pagination_witness :
    download_folder
      ⟨fun q => if q = "/folder" then
        [⟨[RemoteEntry.file "a" "/folder/a"], true⟩,
         ⟨[RemoteEntry.file "b" "/folder/b"], true⟩,
         ⟨[RemoteEntry.file "c" "/folder/c"], false⟩] else []⟩
      1 "/folder"
      = some (3, 0, 3) := by
  have h := download_folder_pagination
    ⟨fun q => if q = "/folder" then
      [⟨[RemoteEntry.file "a" "/folder/a"], true⟩,
       ⟨[RemoteEntry.file "b" "/folder/b"], true⟩,
       ⟨[RemoteEntry.file "c" "/folder/c"], false⟩] else []⟩
    "/folder"
    [⟨[RemoteEntry.file "a" "/folder/a"], true⟩,
     ⟨[RemoteEntry.file "b" "/folder/b"], true⟩,
     ⟨[RemoteEntry.file "c" "/folder/c"], false⟩]
    1 (by simp) (by simp) (by decide) (by decide) (by decide) (by omega)
  simpa using h

/-- C4 counterexample: the input https://a.com/p?x=&b=1 has no dl parameter
yet is not returned unchanged (the blank-valued parameter x is dropped by
the parse/re-encode round trip); and the input ////[x?dl=1 already has
dl=1 yet applying the function twice does not return the same string —
the second application raises (the first moves the bracket into the netloc
position, which urlsplit rejects). -/
theorem convert_url_counterexample :
    convert_dropbox_url_into_download_only "https://a.com/p?x=&b=1"
      = some "https://a.com/p?b=1" ∧
    some "https://a.com/p?x=&b=1" ≠ some ("https://a.com/p?b=1" : String) ∧
    convert_dropbox_url_into_download_only "////[x?dl=1" = some "//[x?dl=1" ∧
    convert_dropbox_url_into_download_only "//[x?dl=1" = none := by
  refine ⟨by decide, by decide, by decide, by decide⟩

/-- C5 counterexample: on https:p?x=&dl=0&dl=0 the dl parameter is present
(twice, with value 0) but is not forced to 1, the other query parameter x
is not preserved, and even the path changes from p to /p in the output
https:///p?dl=0&dl=0. -/
theorem convert_url_frame_counterexample :
    convert_dropbox_url_into_download_only "https:p?x=&dl=0&dl=0"
      = some "https:///p?dl=0&dl=0" := by
  decide

/- Round trip of quote_plus and unquote_plus. -/
theorem hexVal_lt (c : Char) (h : isHexDig c = true) : hexVal c < 16 := by
  simp only [isHexDig, Bool.or_eq_true, Bool.and_eq_true, decide_eq_true_eq] at h
  unfold hexVal
  rcases h with (hd | ⟨h1, h2⟩) | ⟨h1, h2⟩
  · rw [if_pos hd]
    simp only [Char.isDigit, Bool.and_eq_true, decide_eq_true_eq] at hd
    have hd1 : 48 ≤ c.toNat := hd.1
    have hd2 : c.toNat ≤ 57 := hd.2
    omega
  · have h1n : 97 ≤ c.toNat := h1
    have h2n : c.toNat ≤ 102 := h2
    have hdig : c.isDigit = false := by
      rcases hb : c.isDigit with _ | _
      · rfl
      · simp only [Char.isDigit, Bool.and_eq_true, decide_eq_true_eq] at hb
        have : c.toNat ≤ 57 := hb.2
        omega
    rw [if_neg (by simp [hdig]), if_pos (by simp [h1, h2])]
    omega
  · have h1n : 65 ≤ c.toNat := h1
    have h2n : c.toNat ≤ 70 := h2
    have hdig : c.isDigit = false := by
      rcases hb : c.isDigit with _ | _
      · rfl
      · simp only [Char.isDigit, Bool.and_eq_true, decide_eq_true_eq] at hb
        have : 48 ≤ c.toNat := hb.1
        have : c.toNat ≤ 57 := hb.2
        omega
    have hlow : ('a' ≤ c && c ≤ 'f') = false := by
      rcases hb : ('a' ≤ c && c ≤ 'f') with _ | _
      · rfl
      · simp only [Bool.and_eq_true, decide_eq_true_eq] at hb
        have : 97 ≤ c.toNat := hb.1
        omega
    rw [if_neg (by simp [hdig]), if_neg (by simp [hlow])]
    omega

theorem char_toNat_ofNat (n : Nat) (h : n < 55296) : (Char.ofNat n).toNat = n := by
  have hv : n.isValidChar := Or.inl h
  simp [Char.ofNat, hv, Char.ofNatAux, Char.toNat, UInt32.toNat, BitVec.toNat_ofNatLt]


theorem unquote_cons_lit (c : Char) (t : List Char) (h1 : c ≠ '%') (h2 : c ≠ '+') :
    unquote_plus (c :: t) = c :: unquote_plus t := by
  rw [unquote_plus.eq_def]
  split <;> simp_all

theorem unquote_cons_space (t : List Char) :
    unquote_plus ('+' :: t) = ' ' :: unquote_plus t := rfl

theorem unquote_percent (h lo : Char) (t : List Char)
    (hh : isHexDig h = true) (hlo : isHexDig lo = true) :
    unquote_plus ('%' :: h :: lo :: t)
      = Char.ofNat (16 * hexVal h + hexVal lo) :: unquote_plus t := by
  rw [unquote_plus.eq_def]
  simp [hh, hlo]

theorem hexUpper_spec : ∀ n < 16, isHexDig (hexUpperDigit n) = true
    ∧ hexVal (hexUpperDigit n) = n ∧ isUnquotedSafe (hexUpperDigit n) = true := by
  decide

theorem quote_plus_cons (c : Char) (t : List Char) :
    quote_plus (c :: t)
      = (if isUnquotedSafe c then [c]
         else if c = ' ' then ['+'] else quoteChar c) ++ quote_plus t := by
  rfl

theorem unquote_quote (l : List Char) (h : ∀ c ∈ l, c.toNat < 256) :
    unquote_plus (quote_plus l) = l := by
  induction l with
  | nil => rfl
  | cons c t ih =>
      have hc := h c (by simp)
      have iht := ih (fun x hx => h x (by simp [hx]))
      rw [quote_plus_cons]
      by_cases hsafe : isUnquotedSafe c = true
      · rw [if_pos hsafe]
        have h1 : c ≠ '%' := by
          intro he; subst he; simp [isUnquotedSafe, isAsciiAlpha] at hsafe
        have h2 : c ≠ '+' := by
          intro he; subst he; simp [isUnquotedSafe, isAsciiAlpha] at hsafe
        rw [List.singleton_append, unquote_cons_lit c _ h1 h2, iht]
      · rw [if_neg hsafe]
        by_cases hsp : c = ' '
        · subst hsp
          rw [if_pos rfl, List.singleton_append, unquote_cons_space, iht]
        · rw [if_neg hsp]
          show unquote_plus ('%' :: hexUpperDigit (c.toNat / 16 % 16)
            :: hexUpperDigit (c.toNat % 16) :: quote_plus t) = c :: t
          have s1 := hexUpper_spec (c.toNat / 16 % 16) (by omega)
          have s2 := hexUpper_spec (c.toNat % 16) (by omega)
          rw [unquote_percent _ _ _ s1.1 s2.1, s1.2.1, s2.2.1, iht]
          have : 16 * (c.toNat / 16 % 16) + c.toNat % 16 = c.toNat := by omega
          rw [this]
          congr 1
          exact Char.ofNat_toNat c

/-- Characters that quote_plus can emit: safe characters, the plus, and
the percent with uppercase hex digits (themselves safe). -/
theorem mem_quote_plus (l : List Char) (c : Char) (hc : c ∈ quote_plus l) :
    isUnquotedSafe c = true ∨ c = '+' ∨ c = '%' := by
  induction l with
  | nil => simp [quote_plus] at hc
  | cons a t ih =>
      rw [quote_plus_cons] at hc
      rcases List.mem_append.mp hc with h | h
      · by_cases hsafe : isUnquotedSafe a = true
        · rw [if_pos hsafe] at h
          simp at h
          subst h
          exact Or.inl hsafe
        · rw [if_neg hsafe] at h
          by_cases hsp : a = ' '
          · rw [if_pos hsp] at h
            simp at h
            subst h
            exact Or.inr (Or.inl rfl)
          · rw [if_neg hsp] at h
            simp only [quoteChar, List.mem_cons, List.not_mem_nil, or_false] at h
            rcases h with h | h | h
            · exact Or.inr (Or.inr h)
            · subst h
              exact Or.inl (hexUpper_spec _ (by omega)).2.2
            · subst h
              exact Or.inl (hexUpper_spec _ (by omega)).2.2
      · exact ih h

theorem unquote_plus_ne_nil (l : List Char) (h : l ≠ []) :
    unquote_plus l ≠ [] := by
  rw [unquote_plus.eq_def]
  split
  · simp_all
  · split <;> simp
  · simp
  · simp

theorem mem_unquote_plus_lt (l : List Char) :
    (∀ c ∈ l, c.toNat < 128) → ∀ c ∈ unquote_plus l, c.toNat < 256 := by
  induction l using unquote_plus.induct with
  | case1 => intro _ c hc; simp [unquote_plus] at hc
  | case2 h lo rest hhex ih =>
      intro hl c hc
      simp only [Bool.and_eq_true] at hhex
      obtain ⟨hh, hlo⟩ := hhex
      rw [unquote_percent _ _ _ hh hlo] at hc
      rcases List.mem_cons.mp hc with rfl | hc2
      · have h1 := hexVal_lt h hh
        have h2 := hexVal_lt lo hlo
        rw [char_toNat_ofNat (16 * hexVal h + hexVal lo) (by omega)]
        omega
      · exact ih (fun x hx => hl x (by simp [hx])) c hc2
  | case3 h lo rest hhex ih =>
      intro hl c hc
      have : unquote_plus ('%' :: h :: lo :: rest)
          = '%' :: unquote_plus (h :: lo :: rest) := by
        rw [unquote_plus.eq_def]
        simp [hhex]
      rw [this] at hc
      rcases List.mem_cons.mp hc with rfl | hc2
      · decide
      · exact ih (fun x hx => hl x (by simp [hx])) c hc2
  | case4 rest ih =>
      intro hl c hc
      rw [unquote_cons_space] at hc
      rcases List.mem_cons.mp hc with rfl | hc2
      · decide
      · exact ih (fun x hx => hl x (by simp [hx])) c hc2
  | case5 c rest hne1 hne2 ih =>
      intro hl x hx
      have heq : unquote_plus (c :: rest) = c :: unquote_plus rest := by
        by_cases hcp : c = '%'
        · subst hcp
          match rest with
          | [] => rfl
          | [a] => rfl
          | a :: b :: t => exact absurd rfl (hne1 a b t rfl)
        · exact unquote_cons_lit c rest hcp (fun h => hne2 h)
      rw [heq] at hx
      rcases List.mem_cons.mp hx with rfl | hx2
      · have := hl x (by simp)
        omega
      · exact ih (fun y hy => hl y (by simp [hy])) x hx2

/- Character arithmetic helpers. -/

theorem char_eq_of_toNat (a b : Char) (h : a.toNat = b.toNat) : a = b := by
  rcases a with ⟨⟨av⟩, ha⟩
  rcases b with ⟨⟨bv⟩, hb⟩
  simp only [Char.toNat, UInt32.toNat] at h
  have hv : av = bv := BitVec.toNat_injective h
  subst hv
  rfl

theorem char_eq_iff_toNat (a b : Char) : a = b ↔ a.toNat = b.toNat :=
  ⟨fun h => h ▸ rfl, char_eq_of_toNat a b⟩

theorem char_le_iff_toNat (a b : Char) : a ≤ b ↔ a.toNat ≤ b.toNat := Iff.rfl

theorem toLower_toNat (c : Char) :
    c.toLower.toNat = if 65 ≤ c.toNat ∧ c.toNat ≤ 90 then c.toNat + 32 else c.toNat := by
  simp only [Char.toLower, ge_iff_le]
  split_ifs with h
  · exact char_toNat_ofNat _ (by omega)
  · rfl

theorem toLower_idem (c : Char) : c.toLower.toLower = c.toLower := by
  apply char_eq_of_toNat
  rw [toLower_toNat, toLower_toNat c]
  split_ifs with h1 h2 <;> omega

theorem isDigit_iff_toNat (c : Char) :
    c.isDigit = true ↔ 48 ≤ c.toNat ∧ c.toNat ≤ 57 := by
  simp only [Char.isDigit, Bool.and_eq_true, decide_eq_true_eq]
  exact and_congr Iff.rfl Iff.rfl

theorem isAsciiAlpha_iff_toNat (c : Char) :
    isAsciiAlpha c = true ↔
      (97 ≤ c.toNat ∧ c.toNat ≤ 122) ∨ (65 ≤ c.toNat ∧ c.toNat ≤ 90) := by
  simp only [isAsciiAlpha, Bool.or_eq_true, Bool.and_eq_true, decide_eq_true_eq]
  exact or_congr (and_congr Iff.rfl Iff.rfl) (and_congr Iff.rfl Iff.rfl)

theorem isSchemeChar_iff_toNat (c : Char) :
    isSchemeChar c = true ↔
      (97 ≤ c.toNat ∧ c.toNat ≤ 122) ∨ (65 ≤ c.toNat ∧ c.toNat ≤ 90) ∨
      (48 ≤ c.toNat ∧ c.toNat ≤ 57) ∨ c.toNat = 43 ∨ c.toNat = 45 ∨ c.toNat = 46 := by
  constructor
  · intro h
    simp only [isSchemeChar, Bool.or_eq_true, decide_eq_true_eq] at h
    rcases h with (((ha | hd) | hp) | hm) | hdot
    · rcases (isAsciiAlpha_iff_toNat c).mp ha with h2 | h2 <;> omega
    · have h2 := (isDigit_iff_toNat c).mp hd
      omega
    · subst hp; decide
    · subst hm; decide
    · subst hdot; decide
  · intro h
    simp only [isSchemeChar, Bool.or_eq_true, decide_eq_true_eq]
    rcases h with h | h | h | h | h | h
    · exact Or.inl (Or.inl (Or.inl (Or.inl ((isAsciiAlpha_iff_toNat c).mpr (Or.inl h)))))
    · exact Or.inl (Or.inl (Or.inl (Or.inl ((isAsciiAlpha_iff_toNat c).mpr (Or.inr h)))))
    · exact Or.inl (Or.inl (Or.inl (Or.inr ((isDigit_iff_toNat c).mpr h))))
    · exact Or.inl (Or.inl (Or.inr (char_eq_of_toNat c '+' (by rw [h]; rfl))))
    · exact Or.inl (Or.inr (char_eq_of_toNat c '-' (by rw [h]; rfl)))
    · exact Or.inr (char_eq_of_toNat c '.' (by rw [h]; rfl))

theorem isAsciiAlpha_toLower (c : Char) (h : isAsciiAlpha c = true) :
    isAsciiAlpha c.toLower = true := by
  rw [isAsciiAlpha_iff_toNat] at h ⊢
  rw [toLower_toNat]
  split_ifs with h2 <;> omega

theorem isSchemeChar_toLower (c : Char) (h : isSchemeChar c = true) :
    isSchemeChar c.toLower = true := by
  rw [isSchemeChar_iff_toNat] at h ⊢
  rw [toLower_toNat]
  split_ifs with h2 <;> omega

theorem isSchemeChar_ne_colon (c : Char) (h : isSchemeChar c = true) : c ≠ ':' := by
  intro he
  subst he
  simp [isSchemeChar, isAsciiAlpha] at h

/- breakAtFirst structure lemmas. -/

theorem breakAtFirst_some_spec (p : Char → Bool) (l : List Char) :
    ∀ a r, breakAtFirst p l = (a, some r) →
    (∀ c ∈ a, ¬ p c = true) ∧ ∃ ch, p ch = true ∧ l = a ++ ch :: r := by
  induction l with
  | nil => intro a r h; simp [breakAtFirst] at h
  | cons c t ih =>
      intro a r h
      rw [breakAtFirst] at h
      by_cases hp : p c
      · rw [if_pos hp] at h
        rw [Prod.mk.injEq] at h
        obtain ⟨ha, hr⟩ := h
        subst ha
        injection hr with hr
        subst hr
        exact ⟨by simp, c, hp, by simp⟩
      · rw [if_neg hp] at h
        rw [Prod.mk.injEq] at h
        obtain ⟨ha, hr⟩ := h
        rcases hb : breakAtFirst p t with ⟨a2, ro⟩
        rw [hb] at ha hr
        simp only at ha hr
        subst hr
        obtain ⟨hnp, ch, hch, heq⟩ := ih a2 r hb
        subst ha
        refine ⟨?_, ch, hch, ?_⟩
        · intro x hx
          rcases List.mem_cons.mp hx with rfl | hm
          · exact hp
          · exact hnp x hm
        · rw [heq]
          rfl

theorem breakAtFirst_none_spec (p : Char → Bool) (l : List Char) :
    ∀ a, breakAtFirst p l = (a, none) → a = l ∧ ∀ c ∈ l, ¬ p c = true := by
  induction l with
  | nil =>
      intro a h
      rw [breakAtFirst, Prod.mk.injEq] at h
      exact ⟨h.1.symm, by simp⟩
  | cons c t ih =>
      intro a h
      rw [breakAtFirst] at h
      by_cases hp : p c
      · rw [if_pos hp] at h
        rw [Prod.mk.injEq] at h
        cases h.2
      · rw [if_neg hp] at h
        rw [Prod.mk.injEq] at h
        obtain ⟨ha, hr⟩ := h
        rcases hb : breakAtFirst p t with ⟨a2, ro⟩
        rw [hb] at ha hr
        simp only at ha hr
        subst hr
        obtain ⟨ha2, hall⟩ := ih a2 hb
        subst ha2
        subst ha
        refine ⟨rfl, ?_⟩
        intro x hx
        rcases List.mem_cons.mp hx with rfl | hm
        · exact hp
        · exact hall x hm

theorem breakAtFirst_mem (p : Char → Bool) (l : List Char) :
    ∀ a r, breakAtFirst p l = (a, r) →
      (∀ c ∈ a, c ∈ l) ∧ ∀ b, r = some b → ∀ c ∈ b, c ∈ l := by
  intro a r h
  match r with
  | none =>
      obtain ⟨ha, _⟩ := breakAtFirst_none_spec p l a h
      subst ha
      exact ⟨fun c hc => hc, by simp⟩
  | some b =>
      obtain ⟨_, ch, _, heq⟩ := breakAtFirst_some_spec p l a b h
      subst heq
      refine ⟨fun c hc => by simp [hc], ?_⟩
      intro b2 hb2
      injection hb2 with hb2
      subst hb2
      intro c hc
      simp [hc]

/- quote_plus character facts and the chunk roundtrip. -/

theorem quote_plus_ne_nil (l : List Char) (h : l ≠ []) : quote_plus l ≠ [] := by
  match l with
  | c :: t =>
    rw [quote_plus_cons]
    by_cases hs : isUnquotedSafe c = true
    · simp [hs]
    · rw [if_neg hs]
      by_cases hsp : c = ' '
      · subst hsp
        rw [if_pos rfl]
        simp
      · rw [if_neg hsp]
        simp [quoteChar]

theorem not_mem_quote_plus (l : List Char) (c : Char)
    (h1 : isUnquotedSafe c = false) (h2 : c ≠ '+') (h3 : c ≠ '%') :
    c ∉ quote_plus l := by
  intro hc
  rcases mem_quote_plus l c hc with hs | hp | hp
  · rw [h1] at hs
    exact Bool.false_ne_true hs
  · exact h2 hp
  · exact h3 hp

theorem qsChunk_encode (k v : List Char) (hk : ∀ c ∈ k, c.toNat < 256)
    (hv : ∀ c ∈ v, c.toNat < 256) (hvne : v ≠ []) :
    qsChunk (quote_plus k ++ '=' :: quote_plus v) = some (k, v) := by
  rw [qsChunk]
  rw [if_neg (by simp)]
  rw [breakAtFirst_found _ _ _ _
    (fun c hc => by
      simp only [decide_eq_true_eq]
      intro he
      subst he
      exact not_mem_quote_plus k '=' (by decide) (by decide) (by decide) hc)
    (by decide)]
  show (if quote_plus v = [] then none
    else some (unquote_plus (quote_plus k), unquote_plus (quote_plus v))) = some (k, v)
  rw [if_neg (quote_plus_ne_nil v hvne)]
  rw [unquote_quote k hk, unquote_quote v hv]

/- splitOn and intercalate membership. -/

theorem intercalate_cons_cons (sep a b : List Char) (ls : List (List Char)) :
    List.intercalate sep (a :: b :: ls) = a ++ sep ++ List.intercalate sep (b :: ls) := by
  simp [List.intercalate, List.intersperse]

theorem mem_intercalate_of_mem (sep : List Char) (ls : List (List Char))
    (l : List Char) (hl : l ∈ ls) (c : Char) (hc : c ∈ l) :
    c ∈ List.intercalate sep ls := by
  induction ls with
  | nil => simp at hl
  | cons a tl ih =>
      rcases List.mem_cons.mp hl with rfl | hm
      · match tl with
        | [] => simpa [List.intercalate, List.intersperse] using hc
        | b :: tl2 =>
            rw [intercalate_cons_cons]
            simp [hc]
      · match tl with
        | [] => simp at hm
        | b :: tl2 =>
            rw [intercalate_cons_cons]
            simp [ih hm]

theorem splitOn_chars (q chunk : List Char) (h : chunk ∈ q.splitOn '&')
    (c : Char) (hc : c ∈ chunk) : c ∈ q := by
  have h2 : List.intercalate ['&'] (q.splitOn '&') = q := List.intercalate_splitOn q '&'
  rw [← h2]
  exact mem_intercalate_of_mem ['&'] _ chunk h c hc

/- The encoded segments of urlencode parse back chunk by chunk. -/

theorem filterMap_encode_vals (k : List Char) (vs : List (List Char))
    (hk : ∀ c ∈ k, c.toNat < 256)
    (hvs : ∀ v ∈ vs, (∀ c ∈ v, c.toNat < 256) ∧ v ≠ []) :
    (vs.map fun v => quote_plus k ++ '=' :: quote_plus v).filterMap qsChunk
      = vs.map fun v => (k, v) := by
  induction vs with
  | nil => rfl
  | cons v vt ih =>
      simp only [List.map_cons, List.filterMap_cons]
      rw [qsChunk_encode k v hk (hvs v (by simp)).1 (hvs v (by simp)).2]
      rw [ih (fun x hx => hvs x (by simp [hx]))]

theorem filterMap_encode (d : List (List Char × List (List Char)))
    (hd : ∀ kv ∈ d, (∀ c ∈ kv.1, c.toNat < 256) ∧
      ∀ v ∈ kv.2, (∀ c ∈ v, c.toNat < 256) ∧ v ≠ []) :
    (d.flatMap fun kv => kv.2.map fun v =>
        quote_plus kv.1 ++ '=' :: quote_plus v).filterMap qsChunk
      = d.flatMap fun kv => kv.2.map fun v => (kv.1, v) := by
  induction d with
  | nil => rfl
  | cons kv rest ih =>
      simp only [List.flatMap_cons, List.filterMap_append]
      rw [filterMap_encode_vals kv.1 kv.2 (hd kv (by simp)).1 (hd kv (by simp)).2]
      rw [ih (fun q hq => hd q (by simp [hq]))]

theorem parse_qsl_urlencode (d : List (List Char × List (List Char)))
    (hd : ∀ kv ∈ d, (∀ c ∈ kv.1, c.toNat < 256) ∧
      ∀ v ∈ kv.2, (∀ c ∈ v, c.toNat < 256) ∧ v ≠ []) :
    parse_qsl (urlencode d) = d.flatMap fun kv => kv.2.map fun v => (kv.1, v) := by
  by_cases hsegs :
      (d.flatMap fun kv => kv.2.map fun v => quote_plus kv.1 ++ '=' :: quote_plus v) = []
  · rw [urlencode, hsegs]
    have h2 : (d.flatMap fun kv => kv.2.map fun v => (kv.1, v)) = [] := by
      rw [List.flatMap_eq_nil_iff]
      intro kv hkv
      have := List.flatMap_eq_nil_iff.mp hsegs kv hkv
      simp only [List.map_eq_nil_iff] at this ⊢
      exact this
    rw [h2]
    rfl
  · rw [parse_qsl, urlencode]
    rw [List.splitOn_intercalate _ '&' ?hfree hsegs]
    case hfree =>
      intro s hs
      rcases List.mem_flatMap.mp hs with ⟨kv, hkv, hsm⟩
      rcases List.mem_map.mp hsm with ⟨v, hvm, rfl⟩
      intro hamp
      rcases List.mem_append.mp hamp with h1 | h1
      · exact not_mem_quote_plus kv.1 '&' (by decide) (by decide) (by decide) h1
      · rcases List.mem_cons.mp h1 with he | h1
        · cases he
        · exact not_mem_quote_plus v '&' (by decide) (by decide) (by decide) h1
    exact filterMap_encode d hd

/- addPair and the regrouping of sorted pairs into the ordered dict. -/

theorem addPair_cons_ne (k0 : List Char) (vs0 : List (List Char))
    (acc : List (List Char × List (List Char))) (k v : List Char) (hne : k0 ≠ k) :
    addPair ((k0, vs0) :: acc) k v = (k0, vs0) :: addPair acc k v := by
  simp [addPair, hne]

theorem foldl_addPair_cons (k0 : List Char) (vs0 : List (List Char))
    (pairs : List (List Char × List Char)) (hne : ∀ p ∈ pairs, p.1 ≠ k0) :
    ∀ acc, pairs.foldl (fun d kv => addPair d kv.1 kv.2) ((k0, vs0) :: acc)
      = (k0, vs0) :: pairs.foldl (fun d kv => addPair d kv.1 kv.2) acc := by
  induction pairs with
  | nil => intro acc; rfl
  | cons p rest ih =>
      intro acc
      simp only [List.foldl_cons]
      rw [addPair_cons_ne k0 vs0 acc p.1 p.2 (Ne.symm (hne p (by simp)))]
      exact ih (fun q hq => hne q (by simp [hq])) _

theorem foldl_addPair_same (k : List Char) (vt : List (List Char)) :
    ∀ vs, (vt.map fun v => (k, v)).foldl (fun d kv => addPair d kv.1 kv.2) [(k, vs)]
      = [(k, vs ++ vt)] := by
  induction vt with
  | nil => intro vs; simp
  | cons v vt ih =>
      intro vs
      simp only [List.map_cons, List.foldl_cons]
      have h1 : addPair [(k, vs)] k v = [(k, vs ++ [v])] := by simp [addPair]
      rw [h1, ih (vs ++ [v])]
      simp

theorem foldl_addPair_group (d : List (List Char × List (List Char)))
    (hnodup : (d.map Prod.fst).Nodup) (hne : ∀ kv ∈ d, kv.2 ≠ []) :
    (d.flatMap fun kv => kv.2.map fun v => (kv.1, v)).foldl
      (fun d kv => addPair d kv.1 kv.2) [] = d := by
  induction d with
  | nil => rfl
  | cons kv rest ih =>
      obtain ⟨k, vs⟩ := kv
      have hvs : vs ≠ [] := hne (k, vs) (by simp)
      match vs, hvs with
      | v0 :: vt, _ =>
        simp only [List.flatMap_cons, List.foldl_append, List.map_cons, List.foldl_cons]
        have h0 : addPair [] k v0 = [(k, [v0])] := rfl
        rw [h0, foldl_addPair_same k vt [v0]]
        have hknotin : k ∉ rest.map Prod.fst := by
          have := hnodup
          simp only [List.map_cons, List.nodup_cons] at this
          exact this.1
        rw [foldl_addPair_cons k ([v0] ++ vt) _ ?hkeys []]
        case hkeys =>
          intro p hp
          rcases List.mem_flatMap.mp hp with ⟨kv2, hkv2, hpm⟩
          rcases List.mem_map.mp hpm with ⟨v, hvm, rfl⟩
          intro he
          exact hknotin (he ▸ List.mem_map.mpr ⟨kv2, hkv2, rfl⟩)
        rw [ih ?hnd (fun q hq => hne q (by simp [hq]))]
        case hnd =>
          have := hnodup
          simp only [List.map_cons, List.nodup_cons] at this
          exact this.2
        simp

theorem parse_qs_urlencode (d : List (List Char × List (List Char)))
    (hd : ∀ kv ∈ d, (∀ c ∈ kv.1, c.toNat < 256) ∧
      ∀ v ∈ kv.2, (∀ c ∈ v, c.toNat < 256) ∧ v ≠ [])
    (hnodup : (d.map Prod.fst).Nodup) (hne : ∀ kv ∈ d, kv.2 ≠ []) :
    parse_qs (urlencode d) = d := by
  rw [parse_qs, parse_qsl_urlencode d hd, foldl_addPair_group d hnodup hne]

/- Invariants of the dict built by parse_qs. -/

theorem addPair_prop (P : List Char × List (List Char) → Prop)
    (d : List (List Char × List (List Char))) (k v : List Char)
    (hext : ∀ k2 vs, P (k2, vs) → P (k2, vs ++ [v]))
    (hd : ∀ kv ∈ d, P kv) (hnew : P (k, [v])) :
    ∀ kv ∈ addPair d k v, P kv := by
  induction d with
  | nil =>
      intro kv hkv
      simp only [addPair, List.mem_singleton] at hkv
      subst hkv
      exact hnew
  | cons kv0 rest ih =>
      obtain ⟨k2, vs⟩ := kv0
      intro kv hkv
      replace hkv : kv ∈
          (if k2 = k then (k2, vs ++ [v]) :: rest else (k2, vs) :: addPair rest k v) := hkv
      by_cases he : k2 = k
      · rw [if_pos he] at hkv
        rcases List.mem_cons.mp hkv with rfl | hm
        · exact hext k2 vs (hd (k2, vs) (by simp))
        · exact hd kv (by simp [hm])
      · rw [if_neg he] at hkv
        rcases List.mem_cons.mp hkv with rfl | hm
        · exact hd (k2, vs) (by simp)
        · exact ih (fun q hq => hd q (by simp [hq])) kv hm

theorem foldl_addPair_prop (P : List Char × List (List Char) → Prop)
    (pairs : List (List Char × List Char))
    (hext : ∀ p ∈ pairs, ∀ k2 vs, P (k2, vs) → P (k2, vs ++ [p.2]))
    (hnew : ∀ p ∈ pairs, P (p.1, [p.2])) :
    ∀ acc, (∀ kv ∈ acc, P kv) →
      ∀ kv ∈ pairs.foldl (fun d kv => addPair d kv.1 kv.2) acc, P kv := by
  induction pairs with
  | nil => intro acc hacc; exact hacc
  | cons p rest ih =>
      intro acc hacc
      simp only [List.foldl_cons]
      exact ih (fun q hq => hext q (by simp [hq]))
        (fun q hq => hnew q (by simp [hq])) _
        (addPair_prop P acc p.1 p.2 (hext p (by simp) ) hacc (hnew p (by simp)))

theorem addPair_keys (d : List (List Char × List (List Char))) (k v : List Char) :
    (addPair d k v).map Prod.fst
      = if k ∈ d.map Prod.fst then d.map Prod.fst else d.map Prod.fst ++ [k] := by
  induction d with
  | nil => simp [addPair]
  | cons kv0 rest ih =>
      obtain ⟨k2, vs⟩ := kv0
      show (if k2 = k then (k2, vs ++ [v]) :: rest else (k2, vs) :: addPair rest k v).map
          Prod.fst = _
      by_cases he : k2 = k
      · subst he
        rw [if_pos rfl]
        simp
      · rw [if_neg he]
        simp only [List.map_cons, ih]
        have hne2 : (k ∈ k2 :: rest.map Prod.fst) ↔ k ∈ rest.map Prod.fst := by
          simp [Ne.symm he]
        by_cases hm : k ∈ rest.map Prod.fst
        · rw [if_pos hm, if_pos (hne2.mpr hm)]
        · rw [if_neg hm, if_neg (fun hc => hm (hne2.mp hc))]
          simp

theorem addPair_keys_nodup (d : List (List Char × List (List Char))) (k v : List Char)
    (h : (d.map Prod.fst).Nodup) : ((addPair d k v).map Prod.fst).Nodup := by
  rw [addPair_keys]
  split_ifs with hmem
  · exact h
  · rw [List.nodup_append]
    exact ⟨h, List.nodup_singleton k, fun a ha hb => hmem ((List.mem_singleton.mp hb) ▸ ha)⟩

theorem foldl_addPair_nodup (pairs : List (List Char × List Char)) :
    ∀ acc, (acc.map Prod.fst).Nodup →
      ((pairs.foldl (fun d kv => addPair d kv.1 kv.2) acc).map Prod.fst).Nodup := by
  induction pairs with
  | nil => intro acc h; exact h
  | cons p rest ih =>
      intro acc h
      simp only [List.foldl_cons]
      exact ih _ (addPair_keys_nodup acc p.1 p.2 h)

/- Facts about the pairs parse_qsl produces from an ASCII query. -/

theorem parse_qsl_props (q : List Char) (hq : ∀ c ∈ q, c.toNat < 128) :
    ∀ p ∈ parse_qsl q,
      (∀ c ∈ p.1, c.toNat < 256) ∧ (∀ c ∈ p.2, c.toNat < 256) ∧ p.2 ≠ [] := by
  intro p hp
  rw [parse_qsl] at hp
  rcases List.mem_filterMap.mp hp with ⟨chunk, hchunk, hq2⟩
  have hchunkc : ∀ c ∈ chunk, c.toNat < 128 :=
    fun c hc => hq c (splitOn_chars q chunk hchunk c hc)
  rw [qsChunk] at hq2
  by_cases hne : chunk = []
  · rw [if_pos hne] at hq2
    cases hq2
  · rw [if_neg hne] at hq2
    rcases hbk : breakAtFirst (fun c => c = '=') chunk with ⟨name, ro⟩
    rw [hbk] at hq2
    match ro, hq2 with
    | some value, hq2 =>
      have hmem := breakAtFirst_mem (fun c => c = '=') chunk name (some value) hbk
      have hnamec : ∀ c ∈ name, c.toNat < 128 := fun c hc => hchunkc c (hmem.1 c hc)
      have hvaluec : ∀ c ∈ value, c.toNat < 128 :=
        fun c hc => hchunkc c (hmem.2 value rfl c hc)
      replace hq2 : (if value = [] then none
        else some (unquote_plus name, unquote_plus value)) = some p := hq2
      by_cases hv : value = []
      · rw [if_pos hv] at hq2
        cases hq2
      · rw [if_neg hv] at hq2
        injection hq2 with hq2
        subst hq2
        refine ⟨mem_unquote_plus_lt name hnamec, mem_unquote_plus_lt value hvaluec, ?_⟩
        exact unquote_plus_ne_nil value hv

theorem parse_qs_props (q : List Char) (hq : ∀ c ∈ q, c.toNat < 128) :
    (((parse_qs q).map Prod.fst).Nodup) ∧
    ∀ kv ∈ parse_qs q, (∀ c ∈ kv.1, c.toNat < 256) ∧ kv.2 ≠ [] ∧
      ∀ x ∈ kv.2, (∀ c ∈ x, c.toNat < 256) ∧ x ≠ [] := by
  constructor
  · exact foldl_addPair_nodup (parse_qsl q) [] (by simp)
  · rw [parse_qs]
    apply foldl_addPair_prop
    · intro p hp k2 vs hP
      obtain ⟨h1, h2, h3⟩ := parse_qsl_props q hq p hp
      refine ⟨hP.1, by simp, ?_⟩
      intro x hx
      rcases List.mem_append.mp hx with hm | hm
      · exact hP.2.2 x hm
      · rcases List.mem_singleton.mp hm with rfl
        exact ⟨h2, h3⟩
    · intro p hp
      obtain ⟨h1, h2, h3⟩ := parse_qsl_props q hq p hp
      exact ⟨h1, by simp, by simpa using ⟨h2, h3⟩⟩
    · simp

/- forceDl: the dict-level dl flip. -/

theorem lookup_setKey_ne (K : List Char) (W : List (List Char))
    (d : List (List Char × List (List Char))) (k : List Char) (hk : k ≠ K) :
    (d.map fun kv => if kv.1 = K then (kv.1, W) else kv).lookup k = d.lookup k := by
  induction d with
  | nil => rfl
  | cons kv rest ih =>
      obtain ⟨k2, vs⟩ := kv
      simp only [List.map_cons]
      by_cases he : k2 = K
      · rw [if_pos he]
        rw [List.lookup_cons, List.lookup_cons]
        have hne : (k == k2) = false := by
          simp only [beq_eq_false_iff_ne, ne_eq]
          intro hc
          exact hk (he ▸ hc)
        rw [hne]
        exact ih
      · rw [if_neg he]
        rw [List.lookup_cons, List.lookup_cons]
        by_cases hb : (k == k2) = true
        · rw [hb]
        · rw [Bool.eq_false_iff.mpr hb]
          exact ih

theorem lookup_setKey_eq (K : List Char) (W : List (List Char))
    (d : List (List Char × List (List Char))) :
    (d.map fun kv => if kv.1 = K then (kv.1, W) else kv).lookup K
      = (d.lookup K).map fun _ => W := by
  induction d with
  | nil => rfl
  | cons kv rest ih =>
      obtain ⟨k2, vs⟩ := kv
      simp only [List.map_cons]
      by_cases hb : (K == k2) = true
      · have he : k2 = K := by have := (beq_iff_eq.mp hb); exact this.symm
        rw [if_pos he]
        rw [List.lookup_cons, List.lookup_cons, hb]
        rfl
      · have he : ¬k2 = K := by
          intro hc
          exact hb (beq_iff_eq.mpr hc.symm)
        rw [if_neg he]
        rw [List.lookup_cons, List.lookup_cons, Bool.eq_false_iff.mpr hb]
        exact ih

theorem forceDl_keys (d : List (List Char × List (List Char))) :
    (forceDl d).map Prod.fst = d.map Prod.fst := by
  rw [forceDl]
  rcases hl : d.lookup "dl".data with _ | vs
  · rfl
  · show (if vs = ["0".data] then _ else d).map Prod.fst = _
    split_ifs with h0
    · rw [List.map_map]
      apply List.map_congr_left
      intro kv _
      show Prod.fst (if kv.1 = "dl".data then (kv.1, [['1']]) else kv) = kv.1
      split_ifs <;> rfl
    · rfl

theorem forceDl_lookup_ne (d : List (List Char × List (List Char))) (k : List Char)
    (hk : k ≠ "dl".data) : (forceDl d).lookup k = d.lookup k := by
  rw [forceDl]
  rcases hl : d.lookup "dl".data with _ | vs
  · rfl
  · show (if vs = ["0".data] then _ else d).lookup k = _
    split_ifs with h0
    · exact lookup_setKey_ne "dl".data [['1']] d k hk
    · rfl

theorem forceDl_lookup_dl (d : List (List Char × List (List Char))) :
    (forceDl d).lookup "dl".data =
      if d.lookup "dl".data = some ["0".data] then some ["1".data]
      else d.lookup "dl".data := by
  rw [forceDl]
  rcases hl : d.lookup "dl".data with _ | vs
  · rw [if_neg (by simp)]
    exact hl
  · show (if vs = ["0".data] then _ else d).lookup "dl".data = _
    by_cases h0 : vs = ["0".data]
    · rw [if_pos h0, if_pos (by rw [h0])]
      rw [lookup_setKey_eq "dl".data [['1']] d, hl]
      rfl
    · rw [if_neg h0, if_neg (by simp [hl]; intro hc; exact h0 hc), hl]

theorem forceDl_props (d : List (List Char × List (List Char)))
    (h : ∀ kv ∈ d, (∀ c ∈ kv.1, c.toNat < 256) ∧ kv.2 ≠ [] ∧
      ∀ x ∈ kv.2, (∀ c ∈ x, c.toNat < 256) ∧ x ≠ []) :
    ∀ kv ∈ forceDl d, (∀ c ∈ kv.1, c.toNat < 256) ∧ kv.2 ≠ [] ∧
      ∀ x ∈ kv.2, (∀ c ∈ x, c.toNat < 256) ∧ x ≠ [] := by
  rw [forceDl]
  rcases hl : d.lookup "dl".data with _ | vs
  · exact h
  · show ∀ kv ∈ (if vs = ["0".data] then _ else d), _
    split_ifs with h0
    · intro kv hkv
      rcases List.mem_map.mp hkv with ⟨kv0, hkv0, rfl⟩
      by_cases he : kv0.1 = "dl".data
      · rw [if_pos he]
        refine ⟨(h kv0 hkv0).1, by simp, ?_⟩
        intro x hx
        rcases List.mem_singleton.mp hx with rfl
        exact ⟨by decide, by decide⟩
      · rw [if_neg he]
        exact h kv0 hkv0
    · exact h

theorem forceDl_idem (d : List (List Char × List (List Char))) :
    forceDl (forceDl d) = forceDl d := by
  rcases hl : d.lookup "dl".data with _ | vs
  · have h1 : forceDl d = d := by rw [forceDl, hl]
    rw [h1, h1]
  · by_cases h0 : vs = ["0".data]
    · have hlook : (forceDl d).lookup "dl".data = some ["1".data] := by
        rw [forceDl_lookup_dl, hl, if_pos (by rw [h0])]
      rw [forceDl, hlook]
      show (if ["1".data] = ["0".data]
        then List.map (fun kv => if kv.1 = "dl".data then (kv.1, ["1".data]) else kv)
          (forceDl d)
        else forceDl d) = forceDl d
      rw [if_neg (by decide)]
    · have h1 : forceDl d = d := by
        rw [forceDl, hl]
        show (if vs = ["0".data]
          then List.map (fun kv => if kv.1 = "dl".data then (kv.1, ["1".data]) else kv) d
          else d) = d
        rw [if_neg h0]
      rw [h1, h1]

/-- C5 (amended). For every URL that urlparse accepts, the conversion keeps
the parsed scheme, netloc, path, params and fragment components and rebuilds
the URL around them, replacing only the query with the re-encoding of the
parsed parameter dict after the dl flip; at the parameter level (for an
ASCII query) re-parsing the emitted query recovers exactly the flipped dict,
in which every parameter other than dl has its original value list, dl=0 has
become dl=1, and any other dl value is untouched.  The string-level claim
that the path is unchanged is refuted by the counterexample theorem: a
scheme-only URL has a slash prepended to its path. -/
theorem convert_url_frame (u : String) (r : ParseResult)
    (hp : urlparse u.data = some r) (hq : ∀ c ∈ r.query, c.toNat < 128) :
    convert_dropbox_url_into_download_only u
      = some (String.mk (urlunparse ⟨r.scheme, r.netloc, r.path, r.params,
          urlencode (forceDl (parse_qs r.query)), r.fragment⟩))
    ∧ parse_qs (urlencode (forceDl (parse_qs r.query))) = forceDl (parse_qs r.query)
    ∧ (∀ k, k ≠ "dl".data →
        (forceDl (parse_qs r.query)).lookup k = (parse_qs r.query).lookup k)
    ∧ ((parse_qs r.query).lookup "dl".data = some ["0".data] →
        (forceDl (parse_qs r.query)).lookup "dl".data = some ["1".data])
    ∧ ((parse_qs r.query).lookup "dl".data ≠ some ["0".data] →
        (forceDl (parse_qs r.query)).lookup "dl".data
          = (parse_qs r.query).lookup "dl".data) := by
  obtain ⟨hnodup, hprops⟩ := parse_qs_props r.query hq
  refine ⟨?_, ?_, ?_, ?_, ?_⟩
  · rw [convert_dropbox_url_into_download_only, hp]
  · have hfprops := forceDl_props (parse_qs r.query) hprops
    apply parse_qs_urlencode
    · exact fun kv hkv => ⟨(hfprops kv hkv).1, (hfprops kv hkv).2.2⟩
    · rw [forceDl_keys]
      exact hnodup
    · exact fun kv hkv => (hfprops kv hkv).2.1
  · exact fun k hk => forceDl_lookup_ne (parse_qs r.query) k hk
  · intro h0
    rw [forceDl_lookup_dl, if_pos h0]
  · intro h0
    rw [forceDl_lookup_dl, if_neg h0]

theorem convert_url_frame_witness :
    (urlparse "https://www.dropbox.com/s/x?k=v&dl=0".data
      = some ⟨"https".data, "www.dropbox.com".data, "/s/x".data, [],
          "k=v&dl=0".data, []⟩) ∧
    convert_dropbox_url_into_download_only "https://www.dropbox.com/s/x?k=v&dl=0"
      = some (String.mk (urlunparse ⟨"https".data, "www.dropbox.com".data,
          "/s/x".data, [], urlencode (forceDl (parse_qs "k=v&dl=0".data)), []⟩)) :=
  ⟨by decide, (convert_url_frame "https://www.dropbox.com/s/x?k=v&dl=0"
      ⟨"https".data, "www.dropbox.com".data, "/s/x".data, [], "k=v&dl=0".data, []⟩
      (by decide) (by decide)).1⟩

/- Membership through the urlsplit cleaning passes. -/

theorem mem_removeUnsafe (l : List Char) (c : Char) (hc : c ∈ removeUnsafe l) :
    c ∈ l ∧ c ≠ '\t' ∧ c ≠ '\r' ∧ c ≠ '\n' := by
  rw [removeUnsafe] at hc
  have h := List.mem_filter.mp hc
  refine ⟨h.1, ?_⟩
  have h2 := h.2
  simp only [Bool.not_eq_eq_eq_not, Bool.not_true, Bool.or_eq_false_iff,
    decide_eq_false_iff_not] at h2
  exact ⟨h2.1.1, h2.1.2, h2.2⟩

theorem mem_dropWhile (p : Char → Bool) (l : List Char) (c : Char)
    (hc : c ∈ l.dropWhile p) : c ∈ l :=
  (List.dropWhile_sublist p).subset hc

theorem removeUnsafe_of_clean (l : List Char)
    (h : ∀ c ∈ l, c ≠ '\t' ∧ c ≠ '\r' ∧ c ≠ '\n') : removeUnsafe l = l := by
  rw [removeUnsafe]
  rw [List.filter_eq_self]
  intro c hc
  obtain ⟨h1, h2, h3⟩ := h c hc
  simp [h1, h2, h3]

theorem contains_eq_false_of_not_mem (l : List Char) (c : Char) (h : c ∉ l) :
    l.contains c = false := by
  rw [List.contains, List.elem_eq_mem]
  exact decide_eq_false h

/- schemeScan: soundness and completeness. -/

theorem schemeScan_spec (l : List Char) :
    ∀ acc a r, schemeScan acc l = some (a, r) →
      ∃ mid, a = acc.reverse ++ mid ∧ (∀ c ∈ mid, isSchemeChar c = true) ∧
        l = mid ++ ':' :: r := by
  induction l with
  | nil => intro acc a r h; simp [schemeScan] at h
  | cons c t ih =>
      intro acc a r h
      rw [schemeScan] at h
      by_cases hc : c = ':'
      · rw [if_pos hc] at h
        rw [Option.some.injEq, Prod.mk.injEq] at h
        obtain ⟨ha, hr⟩ := h
        subst ha
        subst hr
        subst hc
        exact ⟨[], by simp, by simp, rfl⟩
      · rw [if_neg hc] at h
        by_cases hs : isSchemeChar c = true
        · rw [if_pos hs] at h
          obtain ⟨mid, ha, hmid, ht⟩ := ih (c :: acc) a r h
          refine ⟨c :: mid, ?_, ?_, ?_⟩
          · rw [ha]
            simp
          · intro x hx
            rcases List.mem_cons.mp hx with rfl | hm
            · exact hs
            · exact hmid x hm
          · rw [ht]
            rfl
        · rw [if_neg hs] at h
          cases h

theorem schemeScan_complete (mid : List Char) :
    ∀ acc tail, (∀ c ∈ mid, isSchemeChar c = true) →
      schemeScan acc (mid ++ ':' :: tail) = some (acc.reverse ++ mid, tail) := by
  induction mid with
  | nil =>
      intro acc tail _
      rw [List.nil_append, schemeScan, if_pos rfl]
      simp
  | cons c t ih =>
      intro acc tail hmid
      have hcs : isSchemeChar c = true := hmid c (by simp)
      rw [List.cons_append, schemeScan,
        if_neg (isSchemeChar_ne_colon c hcs), if_pos hcs]
      rw [ih (c :: acc) tail (fun x hx => hmid x (by simp [hx]))]
      simp

theorem schemeSplit_spec (l : List Char) (a r : List Char)
    (h : schemeSplit l = some (a, r)) :
    (∃ c0 t, a = c0 :: t ∧ isAsciiAlpha c0 = true) ∧
      (∀ c ∈ a, isSchemeChar c = true) ∧ l = a ++ ':' :: r := by
  match l with
  | [] => simp [schemeSplit] at h
  | c :: rest =>
      rw [schemeSplit] at h
      by_cases hal : isAsciiAlpha c = true
      · rw [if_pos hal] at h
        obtain ⟨mid, ha, hmid, ht⟩ := schemeScan_spec rest [c] a r h
        have ha2 : a = c :: mid := by simpa using ha
        refine ⟨⟨c, mid, ha2, hal⟩, ?_, ?_⟩
        · intro x hx
          rw [ha2] at hx
          rcases List.mem_cons.mp hx with rfl | hm
          · rw [isSchemeChar, hal]
            rfl
          · exact hmid x hm
        · rw [ht, ha2]
          rfl
      · rw [if_neg hal] at h
        cases h

theorem schemeSplit_complete (a r : List Char) (c0 : Char) (t : List Char)
    (ha : a = c0 :: t) (hal : isAsciiAlpha c0 = true)
    (hsc : ∀ c ∈ a, isSchemeChar c = true) :
    schemeSplit (a ++ ':' :: r) = some (a, r) := by
  subst ha
  rw [List.cons_append, schemeSplit, if_pos hal]
  rw [schemeScan_complete t [c0] r (fun c hc => hsc c (by simp [hc]))]
  simp

theorem schemeSplit_none_of_head (c : Char) (t : List Char)
    (h : isAsciiAlpha c = false) : schemeSplit (c :: t) = none := by
  rw [schemeSplit, if_neg (by simp [h])]

/- Characters that never appear in a clean encoded component. -/

theorem isSchemeChar_clean (c : Char) (h : isSchemeChar c = true) :
    c ≠ '\t' ∧ c ≠ '\r' ∧ c ≠ '\n' := by
  rw [isSchemeChar_iff_toNat] at h
  refine ⟨?_, ?_, ?_⟩ <;> (intro he; subst he; revert h; decide)

theorem isAsciiAlpha_not_c0 (c : Char) (h : isAsciiAlpha c = true) :
    isC0OrSpace c = false := by
  rw [isAsciiAlpha_iff_toNat] at h
  simp only [isC0OrSpace, decide_eq_false_iff_not]
  omega

/- Reassembling urlsplit on the output of urlunsplit. -/

theorem netlocSegment (netloc X : List Char)
    (hnet : ∀ c ∈ netloc, isNetlocEnd c = false)
    (hX : X = [] ∨ ∃ ch t2, X = ch :: t2 ∧ isNetlocEnd ch = true) :
    (netloc ++ X).takeWhile (fun c => !isNetlocEnd c) = netloc ∧
      (netloc ++ X).dropWhile (fun c => !isNetlocEnd c) = X := by
  have htk : X.takeWhile (fun c => !isNetlocEnd c) = [] := by
    rcases hX with rfl | ⟨ch, t2, rfl, hch⟩
    · rfl
    · exact List.takeWhile_cons_of_neg (by simp [hch])
  have hdr : X.dropWhile (fun c => !isNetlocEnd c) = X := by
    rcases hX with rfl | ⟨ch, t2, rfl, hch⟩
    · rfl
    · exact List.dropWhile_cons_of_neg (by simp [hch])
  constructor
  · rw [List.takeWhile_append_of_pos (fun c hc => by simp [hnet c hc]), htk]
    simp
  · rw [List.dropWhile_append_of_pos (fun c hc => by simp [hnet c hc]), hdr]

theorem fragQuerySegment (scheme netloc path query fragment : List Char)
    (hpath : ∀ c ∈ path, c ≠ '?' ∧ c ≠ '#')
    (hquery : ∀ c ∈ query, c ≠ '#') :
    splitFragQuery scheme netloc
      (path ++ (if query = [] then [] else '?' :: query)
        ++ (if fragment = [] then [] else '#' :: fragment))
      = ⟨scheme, netloc, path, query, fragment⟩ := by
  have hq1 : ∀ c ∈ path ++ (if query = [] then [] else '?' :: query), ¬ decide (c = '#') = true := by
    intro c hc
    simp only [decide_eq_true_eq]
    rcases List.mem_append.mp hc with hm | hm
    · exact (hpath c hm).2
    · by_cases hqe : query = []
      · rw [if_pos hqe] at hm
        simp at hm
      · rw [if_neg hqe] at hm
        rcases List.mem_cons.mp hm with rfl | hm2
        · decide
        · exact hquery c hm2
  have hfr : breakAtFirst (fun c => c = '#')
      (path ++ (if query = [] then [] else '?' :: query)
        ++ (if fragment = [] then [] else '#' :: fragment))
      = (path ++ (if query = [] then [] else '?' :: query),
         if fragment = [] then none else some fragment) := by
    by_cases hfe : fragment = []
    · rw [if_pos hfe, if_pos hfe, List.append_nil]
      exact breakAtFirst_not_found _ _ hq1
    · rw [if_neg hfe, if_neg hfe]
      exact breakAtFirst_found _ _ '#' fragment hq1 (by decide)
  have hqr : breakAtFirst (fun c => c = '?')
      (path ++ (if query = [] then [] else '?' :: query))
      = (path, if query = [] then none else some query) := by
    by_cases hqe : query = []
    · rw [if_pos hqe, if_pos hqe, List.append_nil]
      exact breakAtFirst_not_found _ _
        (fun c hc => by simp only [decide_eq_true_eq]; exact (hpath c hc).1)
    · rw [if_neg hqe, if_neg hqe]
      exact breakAtFirst_found _ _ '?' query
        (fun c hc => by simp only [decide_eq_true_eq]; exact (hpath c hc).1) (by decide)
  rw [splitFragQuery]
  simp only [hfr]
  by_cases hfe : fragment = []
  · simp only [if_pos hfe, hqr]
    by_cases hqe : query = []
    · simp only [if_pos hqe]
      rw [hfe, hqe]
    · simp only [if_neg hqe]
      rw [hfe]
  · simp only [if_neg hfe, hqr]
    by_cases hqe : query = []
    · simp only [if_pos hqe]
      rw [hqe]
    · simp only [if_neg hqe]

theorem urlsplit_build (url sch rest netloc rest2 : List Char)
    (hs : (schemeSplit (removeUnsafe (url.dropWhile isC0OrSpace)) = none ∧ sch = []
            ∧ rest = removeUnsafe (url.dropWhile isC0OrSpace)) ∨
          (∃ sraw, schemeSplit (removeUnsafe (url.dropWhile isC0OrSpace)) = some (sraw, rest)
            ∧ sch = sraw.map Char.toLower))
    (h3 : rest.take 2 = ['/', '/'])
    (h4 : (rest.drop 2).takeWhile (fun c => !isNetlocEnd c) = netloc)
    (h5 : (rest.drop 2).dropWhile (fun c => !isNetlocEnd c) = rest2)
    (h6 : '[' ∉ netloc) (h7 : ']' ∉ netloc) :
    urlsplit url = some (splitFragQuery sch netloc rest2) := by
  rw [urlsplit]
  rcases hs with ⟨ha, rfl, rfl⟩ | ⟨sraw, ha, rfl⟩
  · rw [ha]
    rw [if_pos h3, h4, h5]
    simp [h6, h7]
  · rw [ha]
    rw [if_pos h3, h4, h5]
    simp [h6, h7]

theorem urlsplit_unsplit (scheme netloc path query fragment : List Char)
    (hn : netloc ≠ [])
    (hnetloc : ∀ c ∈ netloc, isNetlocEnd c = false ∧ c ≠ '[' ∧ c ≠ ']' ∧
      c ≠ '\t' ∧ c ≠ '\r' ∧ c ≠ '\n')
    (hscheme1 : scheme = [] ∨ ∃ c0 t, scheme = c0 :: t ∧ isAsciiAlpha c0 = true)
    (hscheme2 : ∀ c ∈ scheme, isSchemeChar c = true ∧ c.toLower = c)
    (hpath1 : path = [] ∨ path.head? = some '/')
    (hpath2 : ∀ c ∈ path, c ≠ '?' ∧ c ≠ '#' ∧ c ≠ '\t' ∧ c ≠ '\r' ∧ c ≠ '\n')
    (hquery : ∀ c ∈ query, c ≠ '#' ∧ c ≠ '\t' ∧ c ≠ '\r' ∧ c ≠ '\n')
    (hfrag : ∀ c ∈ fragment, c ≠ '\t' ∧ c ≠ '\r' ∧ c ≠ '\n') :
    urlsplit (urlunsplit scheme netloc path query fragment)
      = some ⟨scheme, netloc, path, query, fragment⟩ := by
  have hout : urlunsplit scheme netloc path query fragment
      = (if scheme = [] then [] else scheme ++ [':'])
        ++ '/' :: '/' :: (netloc
        ++ (path ++ (if query = [] then [] else '?' :: query)
          ++ (if fragment = [] then [] else '#' :: fragment))) := by
    have hp0 : ¬(path ≠ [] ∧ path.head? ≠ some '/') := by
      rintro ⟨hne, hh⟩
      rcases hpath1 with he | he
      · exact hne he
      · exact hh he
    simp only [urlunsplit]
    rw [if_pos (Or.inl hn), if_neg hp0]
    by_cases hse : scheme = [] <;> by_cases hqe : query = [] <;>
      by_cases hfe : fragment = [] <;>
      simp [hse, hqe, hfe, List.append_assoc]
  have hX : (path ++ (if query = [] then [] else '?' :: query)
      ++ (if fragment = [] then [] else '#' :: fragment)) = []
      ∨ ∃ ch t2, (path ++ (if query = [] then [] else '?' :: query)
        ++ (if fragment = [] then [] else '#' :: fragment)) = ch :: t2
          ∧ isNetlocEnd ch = true := by
    rcases hpath1 with hpe | hph
    · rw [hpe, List.nil_append]
      by_cases hqe : query = []
      · rw [if_pos hqe, List.nil_append]
        by_cases hfe : fragment = []
        · rw [if_pos hfe]
          exact Or.inl rfl
        · rw [if_neg hfe]
          exact Or.inr ⟨'#', fragment, rfl, by decide⟩
      · rw [if_neg hqe]
        exact Or.inr ⟨'?', query ++ _, rfl, by decide⟩
    · match path, hph with
      | p0 :: pt, hph =>
        injection hph with hph
        subst hph
        exact Or.inr ⟨'/', _, rfl, by decide⟩
  have hnet1 : ∀ c ∈ netloc, isNetlocEnd c = false := fun c hc => (hnetloc c hc).1
  have hseg := netlocSegment netloc _ hnet1 hX
  have hfq := fragQuerySegment scheme netloc path query fragment
    (fun c hc => ⟨(hpath2 c hc).1, (hpath2 c hc).2.1⟩)
    (fun c hc => (hquery c hc).1)
  have hcleanX : ∀ c ∈ (path ++ (if query = [] then [] else '?' :: query)
      ++ (if fragment = [] then [] else '#' :: fragment)),
      c ≠ '\t' ∧ c ≠ '\r' ∧ c ≠ '\n' := by
    intro c hc
    rcases List.mem_append.mp hc with hm | hm
    · rcases List.mem_append.mp hm with hm2 | hm2
      · exact (hpath2 c hm2).2.2
      · by_cases hqe : query = []
        · rw [if_pos hqe] at hm2
          simp at hm2
        · rw [if_neg hqe] at hm2
          rcases List.mem_cons.mp hm2 with rfl | hm3
          · exact ⟨by decide, by decide, by decide⟩
          · exact (hquery c hm3).2
    · by_cases hfe : fragment = []
      · rw [if_pos hfe] at hm
        simp at hm
      · rw [if_neg hfe] at hm
        rcases List.mem_cons.mp hm with rfl | hm3
        · exact ⟨by decide, by decide, by decide⟩
        · exact hfrag c hm3
  have hcleanCore : ∀ c ∈ '/' :: '/' :: (netloc
      ++ (path ++ (if query = [] then [] else '?' :: query)
        ++ (if fragment = [] then [] else '#' :: fragment))),
      c ≠ '\t' ∧ c ≠ '\r' ∧ c ≠ '\n' := by
    intro c hc
    rcases List.mem_cons.mp hc with rfl | hc
    · exact ⟨by decide, by decide, by decide⟩
    rcases List.mem_cons.mp hc with rfl | hc
    · exact ⟨by decide, by decide, by decide⟩
    rcases List.mem_append.mp hc with hm | hm
    · exact (hnetloc c hm).2.2.2
    · exact hcleanX c hm
  rcases hscheme1 with hse | ⟨c0, t, hsch, halpha⟩
  · -- no scheme: the output starts with the double slash
    subst hse
    rw [hout, if_pos rfl, List.nil_append, ← hfq]
    have hdropN : List.dropWhile isC0OrSpace ('/' :: '/' :: (netloc
        ++ (path ++ (if query = [] then [] else '?' :: query)
          ++ (if fragment = [] then [] else '#' :: fragment))))
        = '/' :: '/' :: (netloc
        ++ (path ++ (if query = [] then [] else '?' :: query)
          ++ (if fragment = [] then [] else '#' :: fragment))) :=
      List.dropWhile_cons_of_neg (by decide)
    have hcleanN := removeUnsafe_of_clean _ hcleanCore
    apply urlsplit_build
    · left
      rw [hdropN, hcleanN]
      exact ⟨schemeSplit_none_of_head '/' _ (by decide), rfl, rfl⟩
    · rfl
    · exact hseg.1
    · exact hseg.2
    · exact fun hm => (hnetloc _ hm).2.1 rfl
    · exact fun hm => (hnetloc _ hm).2.2.1 rfl
  · -- scheme present: starts with an alpha scheme character
    have hsne : scheme ≠ [] := by rw [hsch]; simp
    rw [hout, if_neg hsne]
    have houtform : (scheme ++ [':'])
        ++ '/' :: '/' :: (netloc
        ++ (path ++ (if query = [] then [] else '?' :: query)
          ++ (if fragment = [] then [] else '#' :: fragment)))
        = scheme ++ ':' :: ('/' :: '/' :: (netloc
        ++ (path ++ (if query = [] then [] else '?' :: query)
          ++ (if fragment = [] then [] else '#' :: fragment)))) := by
      simp
    rw [houtform, ← hfq]
    have hcleanAll : ∀ c ∈ scheme ++ ':' :: ('/' :: '/' :: (netloc
        ++ (path ++ (if query = [] then [] else '?' :: query)
          ++ (if fragment = [] then [] else '#' :: fragment)))),
        c ≠ '\t' ∧ c ≠ '\r' ∧ c ≠ '\n' := by
      intro c hc
      rcases List.mem_append.mp hc with hm | hm
      · exact isSchemeChar_clean c (hscheme2 c hm).1
      · rcases List.mem_cons.mp hm with rfl | hm
        · exact ⟨by decide, by decide, by decide⟩
        · exact hcleanCore c hm
    have hdrop : List.dropWhile isC0OrSpace (scheme ++ ':' :: ('/' :: '/' :: (netloc
        ++ (path ++ (if query = [] then [] else '?' :: query)
          ++ (if fragment = [] then [] else '#' :: fragment)))))
        = scheme ++ ':' :: ('/' :: '/' :: (netloc
        ++ (path ++ (if query = [] then [] else '?' :: query)
          ++ (if fragment = [] then [] else '#' :: fragment)))) := by
      rw [hsch, List.cons_append]
      exact List.dropWhile_cons_of_neg (by simp [isAsciiAlpha_not_c0 c0 halpha])
    have hscheme3 : schemeSplit (scheme ++ ':' :: ('/' :: '/' :: (netloc
        ++ (path ++ (if query = [] then [] else '?' :: query)
          ++ (if fragment = [] then [] else '#' :: fragment)))))
        = some (scheme, '/' :: '/' :: (netloc
        ++ (path ++ (if query = [] then [] else '?' :: query)
          ++ (if fragment = [] then [] else '#' :: fragment)))) :=
      schemeSplit_complete scheme _ c0 t hsch halpha
        (fun c hc => (hscheme2 c hc).1)
    have hmaplow : List.map Char.toLower scheme = scheme := by
      have h5 : ∀ c ∈ scheme, c.toLower = c := fun c hc => (hscheme2 c hc).2
      rw [List.map_congr_left h5, List.map_id']
    nth_rewrite 2 [← hmaplow]
    apply urlsplit_build
    · right
      refine ⟨scheme, ?_, rfl⟩
      rw [hdrop, removeUnsafe_of_clean _ hcleanAll]
      exact hscheme3
    · rfl
    · exact hseg.1
    · exact hseg.2
    · exact fun hm => (hnetloc _ hm).2.1 rfl
    · exact fun hm => (hnetloc _ hm).2.2.1 rfl

theorem dropWhile_head_not (p : Char → Bool) (l : List Char) :
    l.dropWhile p = [] ∨ ∃ c t, l.dropWhile p = c :: t ∧ p c = false := by
  induction l with
  | nil => exact Or.inl rfl
  | cons c t ih =>
      rw [List.dropWhile_cons]
      split_ifs with hp
      · exact ih
      · exact Or.inr ⟨c, t, rfl, by simpa using hp⟩

/-- What splitFragQuery produces, for any character property carried by the
input remainder. -/
theorem splitFragQuery_facts (P : Char → Prop) (scheme nl rest2 : List Char)
    (hP : ∀ c ∈ rest2, P c) :
    splitFragQuery scheme nl rest2 = ⟨scheme, nl,
        (splitFragQuery scheme nl rest2).path,
        (splitFragQuery scheme nl rest2).query,
        (splitFragQuery scheme nl rest2).fragment⟩ ∧
    (∀ c ∈ (splitFragQuery scheme nl rest2).path, c ≠ '?' ∧ c ≠ '#' ∧ P c) ∧
    (∀ c ∈ (splitFragQuery scheme nl rest2).query, c ≠ '#' ∧ P c) ∧
    (∀ c ∈ (splitFragQuery scheme nl rest2).fragment, P c) ∧
    ((splitFragQuery scheme nl rest2).path = []
      ∨ (splitFragQuery scheme nl rest2).path.head? = rest2.head?) := by
  rcases hfr : breakAtFirst (fun c => c = '#') rest2 with ⟨a, fro⟩
  have hamem : ∀ c ∈ a, c ∈ rest2 := (breakAtFirst_mem _ rest2 a fro hfr).1
  have hahash : ∀ c ∈ a, c ≠ '#' := by
    match fro with
    | none =>
        obtain ⟨ha, hall⟩ := breakAtFirst_none_spec _ rest2 a hfr
        intro c hc
        have := hall c (ha ▸ hc)
        simpa using this
    | some f =>
        obtain ⟨hfree, _, _, _⟩ := breakAtFirst_some_spec _ rest2 a f hfr
        intro c hc
        have := hfree c hc
        simpa using this
  have hahead : a = [] ∨ a.head? = rest2.head? := by
    match fro with
    | none =>
        obtain ⟨ha, _⟩ := breakAtFirst_none_spec _ rest2 a hfr
        subst ha
        exact Or.inr rfl
    | some f =>
        obtain ⟨_, ch, _, heq⟩ := breakAtFirst_some_spec _ rest2 a f hfr
        match a with
        | [] => exact Or.inl rfl
        | a0 :: arest => rw [heq]; exact Or.inr rfl
  have hfrag : ∀ c ∈ (match fro with | some f => f | none => ([] : List Char)), c ∈ rest2 := by
    match fro with
    | none => simp
    | some f => exact (breakAtFirst_mem _ rest2 a (some f) hfr).2 f rfl
  rcases hqr : breakAtFirst (fun c => c = '?') a with ⟨b, qro⟩
  have hbmem : ∀ c ∈ b, c ∈ a := (breakAtFirst_mem _ a b qro hqr).1
  have hbq : ∀ c ∈ b, c ≠ '?' := by
    match qro with
    | none =>
        obtain ⟨hb, hall⟩ := breakAtFirst_none_spec _ a b hqr
        intro c hc
        have := hall c (hb ▸ hc)
        simpa using this
    | some q =>
        obtain ⟨hfree, _, _, _⟩ := breakAtFirst_some_spec _ a b q hqr
        intro c hc
        have := hfree c hc
        simpa using this
  have hbhead : b = [] ∨ b.head? = a.head? := by
    match qro with
    | none =>
        obtain ⟨hb, _⟩ := breakAtFirst_none_spec _ a b hqr
        subst hb
        exact Or.inr rfl
    | some q =>
        obtain ⟨_, ch, _, heq⟩ := breakAtFirst_some_spec _ a b q hqr
        match b with
        | [] => exact Or.inl rfl
        | b0 :: brest => rw [heq]; exact Or.inr rfl
  have hquery : ∀ c ∈ (match qro with | some q => q | none => ([] : List Char)), c ∈ a := by
    match qro with
    | none => simp
    | some q => exact (breakAtFirst_mem _ a b (some q) hqr).2 q rfl
  have hs : splitFragQuery scheme nl rest2
      = ⟨scheme, nl, b,
         (match qro with | some q => q | none => ([] : List Char)),
         (match fro with | some f => f | none => ([] : List Char))⟩ := by
    rw [splitFragQuery]
    simp only [hfr, hqr]
  rw [hs]
  refine ⟨rfl, ?_, ?_, ?_, ?_⟩
  · intro c hc
    exact ⟨hbq c hc, hahash c (hbmem c hc), hP c (hamem c (hbmem c hc))⟩
  · intro c hc
    exact ⟨hahash c (hquery c hc), hP c (hamem c (hquery c hc))⟩
  · intro c hc
    exact hP c (hfrag c hc)
  · rcases hbhead with rfl | hb2
    · exact Or.inl rfl
    · rcases hahead with rfl | ha2
      · left
        match b, hb2 with
        | [], _ => rfl
      · exact Or.inr (hb2.trans ha2)

theorem urlsplit_frag_bundle (url scheme nl rest2 : List Char)
    (hscheme : scheme = [] ∨ ((∃ c0 t, scheme = c0 :: t ∧ isAsciiAlpha c0 = true) ∧
        ∀ c ∈ scheme, isSchemeChar c = true ∧ c.toLower = c))
    (hnl : ∀ c ∈ nl, isNetlocEnd c = false ∧ c ∈ url ∧
      c ≠ '\t' ∧ c ≠ '\r' ∧ c ≠ '\n')
    (hrest2P : ∀ c ∈ rest2, c ∈ url ∧ c ≠ '\t' ∧ c ≠ '\r' ∧ c ≠ '\n')
    (hhead2 : nl ≠ [] → (rest2 = [] ∨ ∃ ch t2, rest2 = ch :: t2 ∧ isNetlocEnd ch = true)) :
    (∀ c ∈ (splitFragQuery scheme nl rest2).netloc, isNetlocEnd c = false ∧ c ∈ url ∧
      c ≠ '\t' ∧ c ≠ '\r' ∧ c ≠ '\n') ∧
    ((splitFragQuery scheme nl rest2).netloc ≠ [] →
      ((splitFragQuery scheme nl rest2).path = []
        ∨ (splitFragQuery scheme nl rest2).path.head? = some '/')) ∧
    (∀ c ∈ (splitFragQuery scheme nl rest2).path, c ≠ '?' ∧ c ≠ '#' ∧ c ∈ url ∧
      c ≠ '\t' ∧ c ≠ '\r' ∧ c ≠ '\n') ∧
    (∀ c ∈ (splitFragQuery scheme nl rest2).query, c ≠ '#' ∧ c ∈ url ∧
      c ≠ '\t' ∧ c ≠ '\r' ∧ c ≠ '\n') ∧
    (∀ c ∈ (splitFragQuery scheme nl rest2).fragment, c ∈ url ∧
      c ≠ '\t' ∧ c ≠ '\r' ∧ c ≠ '\n') ∧
    ((splitFragQuery scheme nl rest2).scheme = []
      ∨ ∃ c0 t, (splitFragQuery scheme nl rest2).scheme = c0 :: t
          ∧ isAsciiAlpha c0 = true) ∧
    (∀ c ∈ (splitFragQuery scheme nl rest2).scheme,
      isSchemeChar c = true ∧ c.toLower = c) := by
  obtain ⟨hrec, hpath, hquery, hfrag, hhead⟩ := splitFragQuery_facts
    (fun c => c ∈ url ∧ c ≠ '\t' ∧ c ≠ '\r' ∧ c ≠ '\n') scheme nl rest2 hrest2P
  have hnleq : (splitFragQuery scheme nl rest2).netloc = nl := by rw [hrec]
  have hseq : (splitFragQuery scheme nl rest2).scheme = scheme := by rw [hrec]
  refine ⟨?_, ?_, ?_, ?_, ?_, ?_, ?_⟩
  · rw [hnleq]
    exact hnl
  · intro hne
    rw [hnleq] at hne
    rcases hhead with hpe | hph
    · exact Or.inl hpe
    · rcases hhead2 hne with h0 | ⟨ch, t2, heq, hch⟩
      · have h02 : rest2.head? = none := by rw [h0]; rfl
        exact Or.inl (List.head?_eq_none_iff.mp (hph.trans h02))
      · have heq2 : rest2.head? = some ch := by rw [heq]; rfl
        have hph2 := hph.trans heq2
        have hch2 : ch = '/' ∨ ch = '?' ∨ ch = '#' := by
          simp only [isNetlocEnd, Bool.or_eq_true, decide_eq_true_eq] at hch
          tauto
        rcases hch2 with rfl | rfl | rfl
        · exact Or.inr hph2
        · rcases hpl : (splitFragQuery scheme nl rest2).path with _ | ⟨p0, pt⟩
          · exact Or.inl rfl
          · rw [hpl] at hph2
            injection hph2 with hph2
            subst hph2
            refine absurd rfl (hpath _ ?_).1
            rw [hpl]
            exact List.mem_cons_self _ _
        · rcases hpl : (splitFragQuery scheme nl rest2).path with _ | ⟨p0, pt⟩
          · exact Or.inl rfl
          · rw [hpl] at hph2
            injection hph2 with hph2
            subst hph2
            refine absurd rfl (hpath _ ?_).2.1
            rw [hpl]
            exact List.mem_cons_self _ _
  · intro c hc
    obtain ⟨h1, h2, h3⟩ := hpath c hc
    exact ⟨h1, h2, h3⟩
  · intro c hc
    obtain ⟨h1, h2⟩ := hquery c hc
    exact ⟨h1, h2⟩
  · exact hfrag
  · rw [hseq]
    rcases hscheme with rfl | ⟨he, _⟩
    · exact Or.inl rfl
    · exact Or.inr he
  · rw [hseq]
    rcases hscheme with rfl | ⟨_, hsc⟩
    · simp
    · exact hsc

theorem urlsplit_tail_facts (url scheme rest : List Char) (s : SplitResult)
    (hrest : ∀ c ∈ rest, c ∈ url ∧ c ≠ '\t' ∧ c ≠ '\r' ∧ c ≠ '\n')
    (hscheme : scheme = [] ∨ ((∃ c0 t, scheme = c0 :: t ∧ isAsciiAlpha c0 = true) ∧
        ∀ c ∈ scheme, isSchemeChar c = true ∧ c.toLower = c))
    (h : (if rest.take 2 = ['/', '/'] then
        if (((rest.drop 2).takeWhile fun c => !isNetlocEnd c).contains '['
            || ((rest.drop 2).takeWhile fun c => !isNetlocEnd c).contains ']') = true then none
        else some (splitFragQuery scheme
            ((rest.drop 2).takeWhile fun c => !isNetlocEnd c)
            ((rest.drop 2).dropWhile fun c => !isNetlocEnd c))
      else some (splitFragQuery scheme [] rest)) = some s) :
    (∀ c ∈ s.netloc, isNetlocEnd c = false ∧ c ∈ url ∧
      c ≠ '\t' ∧ c ≠ '\r' ∧ c ≠ '\n') ∧
    (s.netloc ≠ [] → (s.path = [] ∨ s.path.head? = some '/')) ∧
    (∀ c ∈ s.path, c ≠ '?' ∧ c ≠ '#' ∧ c ∈ url ∧ c ≠ '\t' ∧ c ≠ '\r' ∧ c ≠ '\n') ∧
    (∀ c ∈ s.query, c ≠ '#' ∧ c ∈ url ∧ c ≠ '\t' ∧ c ≠ '\r' ∧ c ≠ '\n') ∧
    (∀ c ∈ s.fragment, c ∈ url ∧ c ≠ '\t' ∧ c ≠ '\r' ∧ c ≠ '\n') ∧
    (s.scheme = [] ∨ ∃ c0 t, s.scheme = c0 :: t ∧ isAsciiAlpha c0 = true) ∧
    (∀ c ∈ s.scheme, isSchemeChar c = true ∧ c.toLower = c) := by
  by_cases htk : rest.take 2 = ['/', '/']
  · rw [if_pos htk] at h
    by_cases hbr : (((rest.drop 2).takeWhile fun c => !isNetlocEnd c).contains '['
        || ((rest.drop 2).takeWhile fun c => !isNetlocEnd c).contains ']') = true
    · rw [if_pos hbr] at h
      cases h
    · rw [if_neg hbr] at h
      injection h with h
      subst h
      apply urlsplit_frag_bundle url scheme _ _ hscheme
      · intro c hc
        have h1 := List.mem_takeWhile_imp hc
        have h2 : c ∈ rest.drop 2 := (List.takeWhile_sublist _).subset hc
        have h3 := hrest c ((List.drop_sublist 2 rest).subset h2)
        exact ⟨by simpa using h1, h3⟩
      · intro c hc
        have h2 : c ∈ rest.drop 2 := (List.dropWhile_sublist _).subset hc
        exact hrest c ((List.drop_sublist 2 rest).subset h2)
      · intro _
        rcases dropWhile_head_not (fun c => !isNetlocEnd c) (rest.drop 2)
          with h0 | ⟨ch, t2, heq, hch⟩
        · exact Or.inl h0
        · exact Or.inr ⟨ch, t2, heq, by simpa using hch⟩
  · rw [if_neg htk] at h
    injection h with h
    subst h
    apply urlsplit_frag_bundle url scheme _ _ hscheme
    · intro c hc
      simp at hc
    · exact hrest
    · exact fun hne => absurd rfl hne

theorem urlsplit_invariants (url : List Char) (s : SplitResult)
    (h : urlsplit url = some s) :
    (∀ c ∈ s.netloc, isNetlocEnd c = false ∧ c ∈ url ∧
      c ≠ '\t' ∧ c ≠ '\r' ∧ c ≠ '\n') ∧
    (s.netloc ≠ [] → (s.path = [] ∨ s.path.head? = some '/')) ∧
    (∀ c ∈ s.path, c ≠ '?' ∧ c ≠ '#' ∧ c ∈ url ∧ c ≠ '\t' ∧ c ≠ '\r' ∧ c ≠ '\n') ∧
    (∀ c ∈ s.query, c ≠ '#' ∧ c ∈ url ∧ c ≠ '\t' ∧ c ≠ '\r' ∧ c ≠ '\n') ∧
    (∀ c ∈ s.fragment, c ∈ url ∧ c ≠ '\t' ∧ c ≠ '\r' ∧ c ≠ '\n') ∧
    (s.scheme = [] ∨ ∃ c0 t, s.scheme = c0 :: t ∧ isAsciiAlpha c0 = true) ∧
    (∀ c ∈ s.scheme, isSchemeChar c = true ∧ c.toLower = c) := by
  have hu1 : ∀ c ∈ removeUnsafe (url.dropWhile isC0OrSpace),
      c ∈ url ∧ c ≠ '\t' ∧ c ≠ '\r' ∧ c ≠ '\n' := by
    intro c hc
    obtain ⟨h1, h2⟩ := mem_removeUnsafe _ c hc
    exact ⟨mem_dropWhile _ _ c h1, h2⟩
  simp only [urlsplit] at h
  rcases hsp : schemeSplit (removeUnsafe (url.dropWhile isC0OrSpace))
    with _ | ⟨sraw, rest0⟩
  · rw [hsp] at h
    replace h : (if (removeUnsafe (url.dropWhile isC0OrSpace)).take 2 = ['/', '/'] then
        if ((((removeUnsafe (url.dropWhile isC0OrSpace)).drop 2).takeWhile
              fun c => !isNetlocEnd c).contains '['
            || (((removeUnsafe (url.dropWhile isC0OrSpace)).drop 2).takeWhile
              fun c => !isNetlocEnd c).contains ']') = true then none
        else some (splitFragQuery []
            (((removeUnsafe (url.dropWhile isC0OrSpace)).drop 2).takeWhile
              fun c => !isNetlocEnd c)
            (((removeUnsafe (url.dropWhile isC0OrSpace)).drop 2).dropWhile
              fun c => !isNetlocEnd c))
      else some (splitFragQuery [] [] (removeUnsafe (url.dropWhile isC0OrSpace)))) = some s := h
    exact urlsplit_tail_facts url [] _ s hu1 (Or.inl rfl) h
  · rw [hsp] at h
    obtain ⟨⟨c0, mid, hsraw, halpha⟩, hsc, hu1eq⟩ :=
      schemeSplit_spec (removeUnsafe (url.dropWhile isC0OrSpace)) sraw rest0 hsp
    replace h : (if rest0.take 2 = ['/', '/'] then
        if (((rest0.drop 2).takeWhile fun c => !isNetlocEnd c).contains '['
            || ((rest0.drop 2).takeWhile fun c => !isNetlocEnd c).contains ']') = true then none
        else some (splitFragQuery (sraw.map Char.toLower)
            ((rest0.drop 2).takeWhile fun c => !isNetlocEnd c)
            ((rest0.drop 2).dropWhile fun c => !isNetlocEnd c))
      else some (splitFragQuery (sraw.map Char.toLower) [] rest0)) = some s := h
    have hrest : ∀ c ∈ rest0, c ∈ url ∧ c ≠ '\t' ∧ c ≠ '\r' ∧ c ≠ '\n' := by
      intro c hc
      apply hu1
      rw [hu1eq]
      simp [hc]
    refine urlsplit_tail_facts url (sraw.map Char.toLower) rest0 s hrest (Or.inr ⟨?_, ?_⟩) h
    · refine ⟨c0.toLower, mid.map Char.toLower, ?_, isAsciiAlpha_toLower c0 halpha⟩
      rw [hsraw]
      rfl
    · intro c hc
      rcases List.mem_map.mp hc with ⟨c2, hc2, rfl⟩
      exact ⟨isSchemeChar_toLower c2 (hsc c2 hc2), toLower_idem c2⟩

theorem mem_of_contains (l : List Char) (c : Char) (h : l.contains c = true) : c ∈ l := by
  rw [List.contains, List.elem_eq_mem] at h
  exact of_decide_eq_true h

theorem contains_of_mem (l : List Char) (c : Char) (h : c ∈ l) : l.contains c = true := by
  rw [List.contains, List.elem_eq_mem]
  exact decide_eq_true h

theorem pathNorm_eq_of_no_semi (p : List Char) (h : p.contains ';' = false) :
    pathNorm p = p := by
  have hnm : ';' ∉ p := fun hm => by
    rw [contains_of_mem p ';' hm] at h
    cases h
  simp [pathNorm, hnm]

theorem splitLastSlash_spec (p a b : List Char) (h : splitLastSlash p = (a, b)) :
    p = a ++ b ∧ '/' ∉ b ∧ (a = [] ∨ ∃ a2, a = a2 ++ ['/']) := by
  rw [splitLastSlash] at h
  rcases hbk : breakAtFirst (fun c => c = '/') p.reverse with ⟨ra, ro⟩
  rw [hbk] at h
  match ro, h with
  | some rb, h =>
      obtain ⟨hfree, ch, hch, heq⟩ := breakAtFirst_some_spec _ _ _ _ hbk
      have hch2 : ch = '/' := by simpa using hch
      subst hch2
      rw [Prod.mk.injEq] at h
      obtain ⟨ha, hb⟩ := h
      subst ha
      subst hb
      refine ⟨?_, ?_, Or.inr ⟨rb.reverse, rfl⟩⟩
      · calc p = p.reverse.reverse := by rw [List.reverse_reverse]
        _ = (ra ++ '/' :: rb).reverse := by rw [heq]
        _ = (rb.reverse ++ ['/']) ++ ra.reverse := by simp
      · intro hm
        have := hfree '/' (List.mem_reverse.mp hm)
        simp at this
  | none, h =>
      obtain ⟨hall, hfree⟩ := breakAtFirst_none_spec _ _ _ hbk
      rw [Prod.mk.injEq] at h
      obtain ⟨ha, hb⟩ := h
      subst ha
      subst hb
      refine ⟨by simp, ?_, Or.inl rfl⟩
      intro hm
      have := hfree '/' (List.mem_reverse.mpr hm)
      simp at this

theorem splitLastSlash_build (a b a2 : List Char) (ha : a = a2 ++ ['/'])
    (hb : '/' ∉ b) : splitLastSlash (a ++ b) = (a, b) := by
  subst ha
  rw [splitLastSlash]
  have hrev : ((a2 ++ ['/']) ++ b).reverse = b.reverse ++ '/' :: a2.reverse := by simp
  rw [hrev]
  rw [breakAtFirst_found _ _ '/' a2.reverse (fun c hc => by
      simp only [decide_eq_true_eq]
      intro he
      subst he
      exact hb (List.mem_reverse.mp hc)) (by decide)]
  simp

theorem splitparams_rejoin (p x params : List Char) (h : splitparams p = (x, params))
    (hne : params ≠ []) : x ++ ';' :: params = p := by
  simp only [splitparams] at h
  by_cases hsl : p.contains '/' = true
  · rw [if_pos hsl] at h
    rcases hsls : splitLastSlash p with ⟨s1, s2⟩
    rw [hsls] at h
    obtain ⟨hps, _, _⟩ := splitLastSlash_spec p s1 s2 hsls
    rcases hbk : breakAtFirst (fun c => c = ';') s2 with ⟨b, ro⟩
    rw [hbk] at h
    match ro, h with
    | some rest, h =>
        obtain ⟨_, ch, hch, heq⟩ := breakAtFirst_some_spec _ _ _ _ hbk
        have hch2 : ch = ';' := by simpa using hch
        subst hch2
        rw [Prod.mk.injEq] at h
        obtain ⟨hx, hr⟩ := h
        subst hx
        subst hr
        rw [hps, heq]
        simp
    | none, h =>
        rw [Prod.mk.injEq] at h
        exact absurd h.2.symm hne
  · rw [if_neg hsl] at h
    rcases hbk : breakAtFirst (fun c => c = ';') p with ⟨b, ro⟩
    rw [hbk] at h
    match ro, h with
    | some rest, h =>
        obtain ⟨_, ch, hch, heq⟩ := breakAtFirst_some_spec _ _ _ _ hbk
        have hch2 : ch = ';' := by simpa using hch
        subst hch2
        rw [Prod.mk.injEq] at h
        obtain ⟨hx, hr⟩ := h
        subst hx
        subst hr
        exact heq.symm
    | none, h =>
        rw [Prod.mk.injEq] at h
        exact absurd h.2.symm hne

theorem splitparams_sub (p x params : List Char) (h : splitparams p = (x, params)) :
    (∀ c ∈ x, c ∈ p) ∧ (x = [] ∨ x.head? = p.head?) := by
  simp only [splitparams] at h
  by_cases hsl : p.contains '/' = true
  · rw [if_pos hsl] at h
    rcases hsls : splitLastSlash p with ⟨s1, s2⟩
    rw [hsls] at h
    obtain ⟨hps, _, hslash⟩ := splitLastSlash_spec p s1 s2 hsls
    rcases hbk : breakAtFirst (fun c => c = ';') s2 with ⟨b, ro⟩
    rw [hbk] at h
    have hbmem : ∀ c ∈ b, c ∈ s2 := (breakAtFirst_mem _ s2 b ro hbk).1
    match ro, h with
    | some rest, h =>
        rw [Prod.mk.injEq] at h
        obtain ⟨hx, hr⟩ := h
        subst hx
        constructor
        · intro c hc
          rw [hps]
          rcases List.mem_append.mp hc with hm | hm
          · simp [hm]
          · simp [hbmem c hm]
        · match s1, hslash with
          | [], _ =>
              rw [List.nil_append] at hps ⊢
              obtain ⟨_, ch, _, heq⟩ := breakAtFirst_some_spec _ _ _ _ hbk
              match b with
              | [] => exact Or.inl rfl
              | b0 :: bt =>
                  right
                  rw [hps, heq]
                  rfl
          | s0 :: st, _ =>
              right
              rw [hps]
              rfl
    | none, h =>
        rw [Prod.mk.injEq] at h
        obtain ⟨hx, _⟩ := h
        subst hx
        exact ⟨fun c hc => hc, Or.inr rfl⟩
  · rw [if_neg hsl] at h
    rcases hbk : breakAtFirst (fun c => c = ';') p with ⟨b, ro⟩
    rw [hbk] at h
    have hbmem : ∀ c ∈ b, c ∈ p := (breakAtFirst_mem _ p b ro hbk).1
    match ro, h with
    | some rest, h =>
        rw [Prod.mk.injEq] at h
        obtain ⟨hx, _⟩ := h
        subst hx
        refine ⟨hbmem, ?_⟩
        obtain ⟨_, ch, _, heq⟩ := breakAtFirst_some_spec _ _ _ _ hbk
        match b with
        | [] => exact Or.inl rfl
        | b0 :: bt =>
            right
            rw [heq]
            rfl
    | none, h =>
        rw [Prod.mk.injEq] at h
        obtain ⟨hx, _⟩ := h
        subst hx
        exact ⟨fun c hc => hc, Or.inr rfl⟩

theorem pathNorm_of_split (q x params : List Char) (hq : q.contains ';' = true)
    (hsp : splitparams q = (x, params)) :
    pathNorm q = if params = [] then x else x ++ ';' :: params := by
  simp only [pathNorm, hq, eq_self_iff_true, if_true, hsp]

theorem pathNorm_after_split (p x : List Char) (h : splitparams p = (x, [])) :
    pathNorm x = x := by
  simp only [splitparams] at h
  by_cases hsl : p.contains '/' = true
  · rw [if_pos hsl] at h
    rcases hsls : splitLastSlash p with ⟨s1, s2⟩
    rw [hsls] at h
    obtain ⟨hps, hs2slash, hslash⟩ := splitLastSlash_spec p s1 s2 hsls
    rcases hbk : breakAtFirst (fun c => c = ';') s2 with ⟨b, ro⟩
    rw [hbk] at h
    match ro, h with
    | some rest, h =>
        rw [Prod.mk.injEq] at h
        obtain ⟨hx, hr⟩ := h
        obtain ⟨hbfree, ch, hch, heq⟩ := breakAtFirst_some_spec _ _ _ _ hbk
        have hbsemi : ∀ c ∈ b, c ≠ ';' := fun c hcm => by
          have := hbfree c hcm
          simpa using this
        have hbslash : '/' ∉ b := fun hm =>
          hs2slash ((breakAtFirst_mem _ s2 b _ hbk).1 '/' hm)
        rcases hslash with rfl | ⟨a2, rfl⟩
        · rw [List.nil_append] at hps
          have hmem : '/' ∈ p := mem_of_contains p '/' hsl
          rw [hps] at hmem
          exact absurd hmem hs2slash
        · subst hx
          by_cases hxc : ((a2 ++ ['/']) ++ b).contains ';' = true
          · have hsls2 : splitLastSlash ((a2 ++ ['/']) ++ b) = (a2 ++ ['/'], b) :=
              splitLastSlash_build _ b a2 rfl hbslash
            have hbk2 : breakAtFirst (fun c => c = ';') b = (b, none) :=
              breakAtFirst_not_found _ b (fun c hcm => by simpa using hbsemi c hcm)
            have hspx : splitparams ((a2 ++ ['/']) ++ b) = ((a2 ++ ['/']) ++ b, []) := by
              simp only [splitparams]
              rw [if_pos (contains_of_mem _ '/' (by simp)), hsls2, hbk2]
            rw [pathNorm_of_split _ _ _ hxc hspx, if_pos rfl]
          · exact pathNorm_eq_of_no_semi _ (Bool.eq_false_iff.mpr hxc)
    | none, h =>
        rw [Prod.mk.injEq] at h
        obtain ⟨hx, _⟩ := h
        subst hx
        by_cases hxc : p.contains ';' = true
        · have hspx : splitparams p = (p, []) := by
            simp only [splitparams]
            rw [if_pos hsl, hsls, hbk]
          rw [pathNorm_of_split _ _ _ hxc hspx, if_pos rfl]
        · exact pathNorm_eq_of_no_semi _ (Bool.eq_false_iff.mpr hxc)
  · rw [if_neg hsl] at h
    rcases hbk : breakAtFirst (fun c => c = ';') p with ⟨b, ro⟩
    rw [hbk] at h
    match ro, h with
    | some rest, h =>
        rw [Prod.mk.injEq] at h
        obtain ⟨hx, hr⟩ := h
        obtain ⟨hbfree, _, _, _⟩ := breakAtFirst_some_spec _ _ _ _ hbk
        subst hx
        apply pathNorm_eq_of_no_semi
        refine Bool.eq_false_iff.mpr ?_
        intro hc2
        have := hbfree ';' (mem_of_contains b ';' hc2)
        simp at this
    | none, h =>
        rw [Prod.mk.injEq] at h
        obtain ⟨hx, _⟩ := h
        subst hx
        by_cases hxc : p.contains ';' = true
        · have hspx : splitparams p = (p, []) := by
            simp only [splitparams]
            rw [if_neg hsl, hbk]
          rw [pathNorm_of_split _ _ _ hxc hspx, if_pos rfl]
        · exact pathNorm_eq_of_no_semi _ (Bool.eq_false_iff.mpr hxc)

theorem pathNorm_idem (p : List Char) : pathNorm (pathNorm p) = pathNorm p := by
  by_cases hc : p.contains ';' = true
  · rcases hsp2 : splitparams p with ⟨x, params⟩
    have hpn : pathNorm p = if params = [] then x else x ++ ';' :: params :=
      pathNorm_of_split p x params hc hsp2
    by_cases hpe : params = []
    · rw [hpn, if_pos hpe]
      subst hpe
      exact pathNorm_after_split p x hsp2
    · rw [hpn, if_neg hpe]
      have hrej : x ++ ';' :: params = p := splitparams_rejoin p x params hsp2 hpe
      rw [hrej, hpn, if_neg hpe, hrej]
  · have h0 : pathNorm p = p := pathNorm_eq_of_no_semi p (Bool.eq_false_iff.mpr hc)
    rw [h0, h0]

theorem pathNorm_chars (p : List Char) : ∀ c ∈ pathNorm p, c ∈ p := by
  by_cases hc : p.contains ';' = true
  · rcases hsp2 : splitparams p with ⟨x, params⟩
    have hpn : pathNorm p = if params = [] then x else x ++ ';' :: params :=
      pathNorm_of_split p x params hc hsp2
    rw [hpn]
    by_cases hpe : params = []
    · rw [if_pos hpe]
      exact (splitparams_sub p x params hsp2).1
    · rw [if_neg hpe]
      rw [splitparams_rejoin p x params hsp2 hpe]
      exact fun c hc2 => hc2
  · rw [pathNorm_eq_of_no_semi p (Bool.eq_false_iff.mpr hc)]
    exact fun c hc2 => hc2

theorem pathNorm_head (p : List Char) :
    pathNorm p = [] ∨ (pathNorm p).head? = p.head? := by
  by_cases hc : p.contains ';' = true
  · rcases hsp2 : splitparams p with ⟨x, params⟩
    have hpn : pathNorm p = if params = [] then x else x ++ ';' :: params :=
      pathNorm_of_split p x params hc hsp2
    rw [hpn]
    by_cases hpe : params = []
    · rw [if_pos hpe]
      exact (splitparams_sub p x params hsp2).2
    · rw [if_neg hpe]
      rw [splitparams_rejoin p x params hsp2 hpe]
      exact Or.inr rfl
  · rw [pathNorm_eq_of_no_semi p (Bool.eq_false_iff.mpr hc)]
    exact Or.inr rfl

theorem mem_intercalate_inv (sep : List Char) (ls : List (List Char)) (c : Char)
    (hc : c ∈ List.intercalate sep ls) : c ∈ sep ∨ ∃ l ∈ ls, c ∈ l := by
  induction ls with
  | nil => simp [List.intercalate, List.intersperse] at hc
  | cons a tl ih =>
      rcases tl with _ | ⟨b, tl2⟩
      · right
        refine ⟨a, by simp, ?_⟩
        simpa [List.intercalate, List.intersperse] using hc
      · rw [intercalate_cons_cons] at hc
        rcases List.mem_append.mp hc with h1 | h1
        · rcases List.mem_append.mp h1 with h2 | h2
          · exact Or.inr ⟨a, by simp, h2⟩
          · exact Or.inl h2
        · rcases ih h1 with h2 | ⟨l, hl, hcl⟩
          · exact Or.inl h2
          · exact Or.inr ⟨l, by simp [hl], hcl⟩

theorem isUnquotedSafe_facts (c : Char) (h : isUnquotedSafe c = true) :
    c ≠ '#' ∧ c ≠ '\t' ∧ c ≠ '\r' ∧ c ≠ '\n' := by
  refine ⟨?_, ?_, ?_, ?_⟩ <;> (intro he; subst he; exact absurd h (by decide))

theorem urlencode_chars (d : List (List Char × List (List Char))) :
    ∀ c ∈ urlencode d, c ≠ '#' ∧ c ≠ '\t' ∧ c ≠ '\r' ∧ c ≠ '\n' := by
  intro c hc
  rw [urlencode] at hc
  have hq : ∀ (l : List Char), c ∈ quote_plus l →
      c ≠ '#' ∧ c ≠ '\t' ∧ c ≠ '\r' ∧ c ≠ '\n' := by
    intro l hl
    rcases mem_quote_plus l c hl with hs | h3 | h3
    · exact isUnquotedSafe_facts c hs
    · subst h3
      exact ⟨by decide, by decide, by decide, by decide⟩
    · subst h3
      exact ⟨by decide, by decide, by decide, by decide⟩
  rcases mem_intercalate_inv ['&'] _ c hc with h1 | ⟨l, hl, hcl⟩
  · rcases List.mem_singleton.mp h1 with rfl
    exact ⟨by decide, by decide, by decide, by decide⟩
  · rcases List.mem_flatMap.mp hl with ⟨kv, hkv, hlm⟩
    rcases List.mem_map.mp hlm with ⟨v, hv, rfl⟩
    rcases List.mem_append.mp hcl with h2 | h2
    · exact hq _ h2
    · rcases List.mem_cons.mp h2 with rfl | h3
      · exact ⟨by decide, by decide, by decide, by decide⟩
      · exact hq _ h3

/-- Forward image of urlparse on a successful urlsplit: the components pass
through, with the params split and rejoin of the path captured by pathNorm. -/
theorem urlparse_of_urlsplit (url : List Char) (s : SplitResult)
    (h : urlsplit url = some s) :
    ∃ r, urlparse url = some r ∧ r.scheme = s.scheme ∧ r.netloc = s.netloc ∧
      r.query = s.query ∧ r.fragment = s.fragment ∧
      (if r.params ≠ [] then r.path ++ ';' :: r.params else r.path) = pathNorm s.path := by
  rw [urlparse, h]
  by_cases hsemi : s.path.contains ';' = true
  · rcases hsp2 : splitparams s.path with ⟨x, params⟩
    refine ⟨⟨s.scheme, s.netloc, x, params, s.query, s.fragment⟩, ?_, rfl, rfl, rfl, rfl, ?_⟩
    · show (if s.path.contains ';' = true then
          some (⟨s.scheme, s.netloc, (splitparams s.path).1, (splitparams s.path).2,
            s.query, s.fragment⟩ : ParseResult)
        else some ⟨s.scheme, s.netloc, s.path, [], s.query, s.fragment⟩) = _
      rw [if_pos hsemi, hsp2]
    · rw [pathNorm_of_split s.path x params hsemi hsp2]
      show (if params ≠ [] then x ++ ';' :: params else x) = _
      by_cases hpe : params = []
      · rw [if_neg (by simp [hpe]), if_pos hpe]
      · rw [if_pos hpe, if_neg hpe]
  · refine ⟨⟨s.scheme, s.netloc, s.path, [], s.query, s.fragment⟩, ?_, rfl, rfl, rfl, rfl, ?_⟩
    · show (if s.path.contains ';' = true then
          some (⟨s.scheme, s.netloc, (splitparams s.path).1, (splitparams s.path).2,
            s.query, s.fragment⟩ : ParseResult)
        else some ⟨s.scheme, s.netloc, s.path, [], s.query, s.fragment⟩) = _
      rw [if_neg hsemi]
    · show (if ([] : List Char) ≠ [] then s.path ++ ';' :: [] else s.path) = _
      rw [if_neg (by simp)]
      rw [pathNorm_eq_of_no_semi s.path (Bool.eq_false_iff.mpr hsemi)]

/-- Reparsing the urlencoded form of the flipped dict recovers it exactly,
for any ASCII query. -/
theorem parse_qs_urlencode_forceDl (q : List Char) (hq : ∀ c ∈ q, c.toNat < 128) :
    parse_qs (urlencode (forceDl (parse_qs q))) = forceDl (parse_qs q) := by
  obtain ⟨hnodup, hprops⟩ := parse_qs_props q hq
  have hfprops := forceDl_props (parse_qs q) hprops
  apply parse_qs_urlencode
  · exact fun kv hkv => ⟨(hfprops kv hkv).1, (hfprops kv hkv).2.2⟩
  · rw [forceDl_keys]
    exact hnodup
  · exact fun kv hkv => (hfprops kv hkv).2.1

theorem convert_idem_core (u : String) (r : ParseResult)
    (hascii : ∀ c ∈ u.data, c.toNat < 128)
    (hbl : '[' ∉ u.data) (hbrk : ']' ∉ u.data)
    (hp : urlparse u.data = some r) (hn : r.netloc ≠ []) :
    ∃ out, convert_dropbox_url_into_download_only u = some out ∧
      convert_dropbox_url_into_download_only out = some out := by
  have hus0 : ∃ s, urlsplit u.data = some s := by
    rw [urlparse] at hp
    rcases hus : urlsplit u.data with _ | s
    · rw [hus] at hp
      cases hp
    · exact ⟨s, rfl⟩
  obtain ⟨s, hus⟩ := hus0
  obtain ⟨r1, hp1, hsch, hnl, hqy, hfr, hpath⟩ := urlparse_of_urlsplit u.data s hus
  have hr1 : r = r1 := Option.some.inj (hp.symm.trans hp1)
  subst hr1
  obtain ⟨inv1, inv2, inv3, inv4, inv5, inv6, inv7⟩ := urlsplit_invariants u.data s hus
  have hn2 : s.netloc ≠ [] := by
    rw [← hnl]
    exact hn
  have hqascii : ∀ c ∈ s.query, c.toNat < 128 := fun c hc => hascii c (inv4 c hc).2.1
  have hq14 : parse_qs (urlencode (forceDl (parse_qs s.query))) = forceDl (parse_qs s.query) :=
    parse_qs_urlencode_forceDl s.query hqascii
  have hfirst : convert_dropbox_url_into_download_only u
      = some (String.mk (urlunsplit s.scheme s.netloc (pathNorm s.path)
          (urlencode (forceDl (parse_qs s.query))) s.fragment)) := by
    rw [convert_dropbox_url_into_download_only, hp]
    show some (String.mk (urlunsplit r.scheme r.netloc
        (if r.params ≠ [] then r.path ++ ';' :: r.params else r.path)
        (urlencode (forceDl (parse_qs r.query))) r.fragment)) = _
    rw [hsch, hnl, hqy, hfr, hpath]
  have hsplit2 : urlsplit (urlunsplit s.scheme s.netloc (pathNorm s.path)
      (urlencode (forceDl (parse_qs s.query))) s.fragment)
      = some ⟨s.scheme, s.netloc, pathNorm s.path,
          urlencode (forceDl (parse_qs s.query)), s.fragment⟩ := by
    apply urlsplit_unsplit _ _ _ _ _ hn2
    · intro c hc
      obtain ⟨h1, h2, h3⟩ := inv1 c hc
      refine ⟨h1, ?_, ?_, h3⟩
      · intro he
        subst he
        exact hbl h2
      · intro he
        subst he
        exact hbrk h2
    · exact inv6
    · exact inv7
    · rcases pathNorm_head s.path with h0 | h0
      · exact Or.inl h0
      · rcases inv2 hn2 with hpe | hph
        · left
          have hpe2 : s.path.head? = none := by rw [hpe]; rfl
          exact List.head?_eq_none_iff.mp (h0.trans hpe2)
        · exact Or.inr (h0.trans hph)
    · intro c hc
      have hcp := pathNorm_chars s.path c hc
      obtain ⟨h1, h2, _, h4, h5, h6⟩ := inv3 c hcp
      exact ⟨h1, h2, h4, h5, h6⟩
    · exact fun c hc => urlencode_chars _ c hc
    · exact fun c hc => (inv5 c hc).2
  obtain ⟨r2, hp2, hsch2, hnl2, hqy2, hfr2, hpath2⟩ :=
    urlparse_of_urlsplit _ _ hsplit2
  refine ⟨_, hfirst, ?_⟩
  rw [convert_dropbox_url_into_download_only]
  have hdata : (String.mk (urlunsplit s.scheme s.netloc (pathNorm s.path)
      (urlencode (forceDl (parse_qs s.query))) s.fragment)).data
      = urlunsplit s.scheme s.netloc (pathNorm s.path)
          (urlencode (forceDl (parse_qs s.query))) s.fragment := rfl
  rw [hdata, hp2]
  show some (String.mk (urlunsplit r2.scheme r2.netloc
      (if r2.params ≠ [] then r2.path ++ ';' :: r2.params else r2.path)
      (urlencode (forceDl (parse_qs r2.query))) r2.fragment)) = _
  rw [hsch2, hnl2, hqy2, hfr2, hpath2]
  show some (String.mk (urlunsplit s.scheme s.netloc
      (pathNorm (pathNorm s.path))
      (urlencode (forceDl (parse_qs (urlencode (forceDl (parse_qs s.query))))))
      s.fragment)) = _
  rw [pathNorm_idem, hq14, forceDl_idem]

/-- C4 (amended). On every ASCII, bracket-free URL with a nonempty network
location -- in particular every real share link -- the conversion is
idempotent: a second application returns its own input unchanged (and in
particular an input already carrying dl=1 re-encodes to itself).  The
...?rlkey=abc&dl=0 example maps to the same URL with dl=1 and the dl=1 form
is a fixed point.  As the counterexample theorem shows, the unrestricted
claim is false: a URL whose re-encoding drops a blank parameter is not
returned unchanged, and a bracketed scheme-less input can gain a prefix
whose second parse raises. -/
theorem convert_url_idempotent :
    (∀ (u : String) (r : ParseResult),
      (∀ c ∈ u.data, c.toNat < 128) → '[' ∉ u.data → ']' ∉ u.data →
      urlparse u.data = some r → r.netloc ≠ [] →
      ∃ out, convert_dropbox_url_into_download_only u = some out ∧
        convert_dropbox_url_into_download_only out = some out)
    ∧ (convert_dropbox_url_into_download_only "https://www.dropbox.com/s/a?rlkey=abc&dl=0"
        = some "https://www.dropbox.com/s/a?rlkey=abc&dl=1")
    ∧ (convert_dropbox_url_into_download_only "https://www.dropbox.com/s/a?rlkey=abc&dl=1"
        = some "https://www.dropbox.com/s/a?rlkey=abc&dl=1") :=
  ⟨convert_idem_core, by decide, by decide⟩

theorem convert_url_idempotent_witness :
    (urlparse "https://www.dropbox.com/s/a?rlkey=abc&dl=0".data
      = some ⟨"https".data, "www.dropbox.com".data, "/s/a".data, [],
          "rlkey=abc&dl=0".data, []⟩) ∧
    ∃ out, convert_dropbox_url_into_download_only
        "https://www.dropbox.com/s/a?rlkey=abc&dl=0" = some out ∧
      convert_dropbox_url_into_download_only out = some out :=
  ⟨by decide, convert_url_idempotent.1 "https://www.dropbox.com/s/a?rlkey=abc&dl=0"
      ⟨"https".data, "www.dropbox.com".data, "/s/a".data, [], "rlkey=abc&dl=0".data, []⟩
      (by decide) (by decide) (by decide) (by decide) (by decide)⟩

end DropboxUpload
